import Mathlib

/-!
Verification development for the timemory measurement-storage core.

The development shallowly embeds, in Lean 4:
  * the per-thread hierarchical call-graph store and the scoped-handle
    lifecycle (modelled from the specification, since the store's
    implementation ships outside the four source files; the test driver
    `part_000` fixes the concrete instrumentation traces),
  * the component base class from
    `source/timemory/components/base/declaration.hpp`,
  * `tim::filepath::replace` / `tim::filepath::canonical` from the
    filepath utility header,
  * `tim::settings::format` and the text branch of `tim::settings::read`
    from `source/timemory/settings/settings.cpp`,
  * MD5 (modelled from the specification's reference to "md5", following
    RFC 1321, since `utility/md5.hpp` is not among the sources).

Strings are embedded as `List Char`.  Loops of the C++ sources that are
not structurally recursive are given an explicit fuel argument; the fuel
chosen by the wrapper definitions is provably sufficient for every use
below (each loop iteration either shortens the string or consumes a
distinguished character that the replacement never re-introduces).
-/

namespace Timemory

/-! ### The per-thread call-graph store

Modelled from the spec: §4.3 "Call-graph store", §4.4 "Scoped measurement
handle", §4.5 "Thread binding" and §4.6 "Aggregator / finalizer".  The
store implementation (`timing_manager` / `impl::storage`) is not among the
source files; only its test driver (`part_000`) and the settings that
feed it are.  Nodes are identified by their hash path from the (implicit,
uncounted) root; the hash registry deduplicates labels to stable ids, so
labels are embedded directly as numeric hashes.  `size()` is the number
of recorded nodes, i.e. `nodes.length`. -/

/-- A node path: the label hashes from the root down to the node.
The node's depth is the path length (the implicit root has depth 0). -/
abbrev Path := List Nat

/-- State of the measurement storage: the master on/off toggle, the depth
clamp, the thread-collapse setting, the recorded node paths (insertion
order, no duplicates) and the cursor (the path of the node the next
insertion attaches under). -/
structure CallGraph where
  enabled : Bool
  maxDepth : Nat
  collapse : Bool
  nodes : List Path
  cursor : Path
  deriving Repr, DecidableEq

/-- Record a node path, reusing it if it is already present (TREE scope:
re-entering the same label under the same parent reuses the node). -/
def addNode (p : Path) (ns : List Path) : List Path :=
  if ns.contains p then ns else ns ++ [p]

mutual
/-- Instrumentation actions of a thread, as generated by the RAII scoped
handles of the test driver:
  * `scope lab body` — a `TIMEMORY_AUTO_TIMER`-style handle with label
    hash `lab` whose lifetime covers `body`;
  * `setEnabled b` — `timing_manager::enable(b)`;
  * `spawn body` — create a worker thread executing `body`; the worker
    gets a fresh store and a bookmark equal to the parent's cursor, and
    finalization with `collapse_threads=true` stitches the worker's
    sub-tree beneath that bookmark. -/
inductive Act where
  | scope (lab : Nat) (body : Acts)
  | setEnabled (b : Bool)
  | spawn (body : Acts)
  deriving Repr

/-- A sequence of actions (explicit list, mutual with `Act`). -/
inductive Acts where
  | nil
  | cons (a : Act) (rest : Acts)
  deriving Repr
end

/-- Append two action sequences. -/
def Acts.append : Acts → Acts → Acts
  | .nil, ys => ys
  | .cons a xs, ys => .cons a (Acts.append xs ys)

/-- Build an action sequence from a list. -/
def actsOf : List Act → Acts
  | [] => .nil
  | a :: rest => .cons a (actsOf rest)

mutual
/-- Run one action.  Per the spec:
  * on a disabled store the handle records a sentinel token, no node is
    created, and the paired pop is a no-op;
  * an insertion that would create a node at depth `> maxDepth` is
    skipped, the cursor is not advanced, and the paired pop is a no-op;
  * otherwise the child path `cursor ++ [lab]` is recorded (reused if
    already present) and the cursor moves there; the paired pop returns
    the cursor to the parent;
  * a spawned worker runs in a fresh store; with `collapse` set its
    recorded paths are stitched beneath the spawner's cursor at the
    finalization merge. -/
def runAct (st : CallGraph) : Act → CallGraph
  | .scope lab body =>
      if st.enabled then
        if (st.cursor ++ [lab]).length ≤ st.maxDepth then
          let st1 := runActs { st with nodes := addNode (st.cursor ++ [lab]) st.nodes,
                                       cursor := st.cursor ++ [lab] } body
          { st1 with cursor := st.cursor }
        else
          runActs st body
      else
        runActs st body
  | .setEnabled b => { st with enabled := b }
  | .spawn body =>
      let w := runActs { st with nodes := [], cursor := [] } body
      if st.collapse then
        { st with nodes := w.nodes.foldl (fun ns q => addNode (st.cursor ++ q) ns) st.nodes }
      else
        st

/-- Run a sequence of actions. -/
def runActs (st : CallGraph) : Acts → CallGraph
  | .nil => st
  | .cons a rest => runActs (runAct st a) rest
end

/-! ### Instrumented fibonacci traces, from `part_000`

```
int64_t fibonacci(int32_t n)
{
    if (n < 2) return n;
    if(n > 36) { TIMEMORY_AUTO_TIMER(); return fibonacci(n-1) + fibonacci(n-2); }
    else return fibonacci(n-1) + fibonacci(n-2);
}
int64_t time_fibonacci(int32_t n)
{   ss << "(" << n << ")"; TIMEMORY_AUTO_TIMER(ss.str()); return fibonacci(n); }
```

`TIMEMORY_AUTO_TIMER()` inside `fibonacci` always produces the same label
(the enclosing function name), so every instrumented recursive call uses
one label hash `hFib`; `time_fibonacci(n)` tags the label with `(n)`, a
distinct label per argument, hashed injectively by `hTF`. -/

def hFib : Nat := 1
/-- Hash of the label `time_fibonacci(n)` (injective in `n`). -/
def hTF (n : Nat) : Nat := 100 + n
def hTest : Nat := 2
def hToggleOn : Nat := 3
def hToggleOff : Nat := 4
def hThreadFn : Nat := 5
def hThreads16 : Nat := 6
def hCreate : Nat := 7
def hJoin : Nat := 8
def hDepthFn : Nat := 9

/-- The scoped-handle trace of `fibonacci n` (fuel-structural; the
wrapper `fibAct` supplies fuel `n + 1`, which covers the recursion
depth).  A call with `n < 2` returns immediately; a call with `n > 36`
opens an auto-timer scope around the two recursive calls; otherwise the
two recursive calls run uninstrumented. -/
def fibActF : Nat → Nat → Acts
  | 0, _ => .nil
  | f + 1, n =>
      if n < 2 then .nil
      else if 36 < n then
        .cons (Act.scope hFib ((fibActF f (n - 1)).append (fibActF f (n - 2)))) .nil
      else (fibActF f (n - 1)).append (fibActF f (n - 2))

/-- The scoped-handle trace of `fibonacci n`. -/
def fibAct (n : Nat) : Acts := fibActF (n + 1) n

/-- The scoped-handle trace of `time_fibonacci n`. -/
def timeFibAct (n : Nat) : Act := Act.scope (hTF n) (fibAct n)

/-- Shortcut evaluation of `fibActF`: cuts off at `n ≤ 36` without
descending further, so the kernel can evaluate it; provably equal to
`fibActF` (`fibActF_eq_fastFibActF`). -/
def fastFibActF : Nat → Nat → Acts
  | 0, _ => .nil
  | f + 1, n =>
      if n ≤ 36 then .nil
      else .cons (Act.scope hFib ((fastFibActF f (n - 1)).append (fastFibActF f (n - 2)))) .nil

def fastFibAct (n : Nat) : Acts := fastFibActF (n + 1) n

def fastTimeFibAct (n : Nat) : Act := Act.scope (hTF n) (fastFibAct n)

theorem fastFibActF_le36 (f n : Nat) (h : n ≤ 36) : fastFibActF f n = .nil := by
  cases f with
  | zero => rfl
  | succ f => simp [fastFibActF, h]

theorem fibActF_eq_fastFibActF : ∀ f n, fibActF f n = fastFibActF f n := by
  intro f
  induction f with
  | zero => intro n; rfl
  | succ f ih =>
    intro n
    by_cases h2 : n < 2
    · have h36 : n ≤ 36 := by omega
      simp [fibActF, fastFibActF, h2, h36]
    · by_cases h36 : 36 < n
      · simp [fibActF, fastFibActF, h2, h36, Nat.not_le.mpr h36, ih]
      · have hle1 : n - 1 ≤ 36 := by omega
        have hle2 : n - 2 ≤ 36 := by omega
        have hle : n ≤ 36 := by omega
        simp [fibActF, fastFibActF, h2, h36, hle, ih,
              fastFibActF_le36 f _ hle1, fastFibActF_le36 f _ hle2,
              Acts.append]

theorem fibAct_eq_fastFibAct (n : Nat) : fibAct n = fastFibAct n :=
  fibActF_eq_fastFibActF (n + 1) n

theorem timeFibAct_eq_fast (n : Nat) : timeFibAct n = fastTimeFibAct n := by
  simp [timeFibAct, fastTimeFibAct, fibAct_eq_fastFibAct]

/-! ### Settings defaults used by the scenarios (from `settings.cpp`) -/

/-- `settings.cpp` lines 708-713: the `max_depth` setting defaults to
`std::numeric_limits<uint16_t>::max()`, i.e. effectively unlimited. -/
def max_depth_default : Nat := 65535

/-- `settings.cpp` lines 1009-1013: `collapse_threads` defaults to `true`. -/
def collapse_threads_default : Bool := true

/-- Fresh store of a thread: given toggle state and depth clamp, no nodes,
cursor at the implicit root. -/
def initStore (enabled : Bool) (maxDepth : Nat) : CallGraph :=
  { enabled := enabled, maxDepth := maxDepth, collapse := collapse_threads_default,
    nodes := [], cursor := [] }

/-! ### Scenarios from `part_000` -/

/-- `test_timing_manager` (lines 150-183): a manual `timer` handle around
`time_fibonacci(itr)` for `itr ∈ {37, 39, 41, 43, 45, 41, 37, 45}`. -/
def scenario_manager : Acts :=
  actsOf [Act.scope hTest (actsOf ([37, 39, 41, 43, 45, 41, 37, 45].map timeFibAct))]

def scenario_manager_fast : Acts :=
  actsOf [Act.scope hTest (actsOf ([37, 39, 41, 43, 45, 41, 37, 45].map fastTimeFibAct))]

theorem scenario_manager_eq : scenario_manager = scenario_manager_fast := by
  simp [scenario_manager, scenario_manager_fast, timeFibAct_eq_fast]

/-- `test_timing_toggle` second block (lines 207-216): disabled store, one
auto-timer `@toggle_off` around `time_fibonacci(45)`. -/
def scenario_toggle_off : Acts :=
  actsOf [Act.scope hToggleOff (actsOf [timeFibAct 45])]

def scenario_toggle_off_fast : Acts :=
  actsOf [Act.scope hToggleOff (actsOf [fastTimeFibAct 45])]

theorem scenario_toggle_off_eq : scenario_toggle_off = scenario_toggle_off_fast := by
  simp [scenario_toggle_off, scenario_toggle_off_fast, timeFibAct_eq_fast]

/-- `test_timing_toggle` third block (lines 218-229): enabled store, one
auto-timer `@toggle_on` around `time_fibonacci(45)`, then `enable(false)`,
then an auto-timer `@toggle_off` around `time_fibonacci(43)`. -/
def scenario_toggle_mid : Acts :=
  actsOf [Act.scope hToggleOn (actsOf
    [timeFibAct 45, Act.setEnabled false,
     Act.scope hToggleOff (actsOf [timeFibAct 43])])]

def scenario_toggle_mid_fast : Acts :=
  actsOf [Act.scope hToggleOn (actsOf
    [fastTimeFibAct 45, Act.setEnabled false,
     Act.scope hToggleOff (actsOf [fastTimeFibAct 43])])]

theorem scenario_toggle_mid_eq : scenario_toggle_mid = scenario_toggle_mid_fast := by
  simp [scenario_toggle_mid, scenario_toggle_mid_fast, timeFibAct_eq_fast]

/-- `create_thread` (lines 240-245): an auto-timer scope inside which the
worker thread is spawned; the worker runs `time_fibonacci(nfib + n%2)`. -/
def createThreadAct (n : Nat) : Act :=
  Act.scope hCreate (actsOf [Act.spawn (actsOf [timeFibAct n])])

def createThreadActFast (n : Nat) : Act :=
  Act.scope hCreate (actsOf [Act.spawn (actsOf [fastTimeFibAct n])])

/-- The 16 `create_thread(43)` calls; the static counter alternates the
worker argument between 43 and 44 (`nfib + (n++)%2`). -/
def createThreadActs : Nat → Nat → Acts
  | _, 0 => .nil
  | j, k + 1 => .cons (createThreadAct (43 + j % 2)) (createThreadActs (j + 1) k)

def createThreadActsFast : Nat → Nat → Acts
  | _, 0 => .nil
  | j, k + 1 => .cons (createThreadActFast (43 + j % 2)) (createThreadActsFast (j + 1) k)

theorem createThreadActs_eq : ∀ k j, createThreadActs j k = createThreadActsFast j k := by
  intro k
  induction k with
  | zero => intro j; rfl
  | succ k ih =>
    intro j
    simp [createThreadActs, createThreadActsFast, createThreadAct, createThreadActFast,
          timeFibAct_eq_fast, ih]

/-- `join_thread` (lines 249-258): joins recursively, opening one nested
auto-timer scope per remaining thread. -/
def joinThreadActs : Nat → Acts
  | 0 => .nil
  | k + 1 => .cons (Act.scope hJoin (joinThreadActs k)) .nil

/-- `test_timing_thread` (lines 262-300): an outer auto-timer, an inner
`@16_threads` auto-timer, 16 thread creations, then the recursive join. -/
def scenario_thread : Acts :=
  actsOf [Act.scope hThreadFn (actsOf [Act.scope hThreads16
    ((createThreadActs 0 16).append (joinThreadActs 16))])]

def scenario_thread_fast : Acts :=
  actsOf [Act.scope hThreadFn (actsOf [Act.scope hThreads16
    ((createThreadActsFast 0 16).append (joinThreadActs 16))])]

theorem scenario_thread_eq : scenario_thread = scenario_thread_fast := by
  simp [scenario_thread, scenario_thread_fast, createThreadActs_eq]

/-- `test_timing_depth` (lines 304-329): `max_depth` set to 3, one
auto-timer scope around `time_fibonacci(n)` for `n ∈ {40, 41, 42}`. -/
def scenario_depth : Acts :=
  actsOf [Act.scope hDepthFn (actsOf ([40, 41, 42].map timeFibAct))]

def scenario_depth_fast : Acts :=
  actsOf [Act.scope hDepthFn (actsOf ([40, 41, 42].map fastTimeFibAct))]

theorem scenario_depth_eq : scenario_depth = scenario_depth_fast := by
  simp [scenario_depth, scenario_depth_fast, timeFibAct_eq_fast]

/-! ### Structural invariants of the store -/

/-- Action sequences that never toggle the master switch. -/
inductive NoEnable : Acts → Prop where
  | nil : NoEnable .nil
  | scope {lab body rest} : NoEnable body → NoEnable rest →
      NoEnable (.cons (Act.scope lab body) rest)
  | spawn {body rest} : NoEnable body → NoEnable rest →
      NoEnable (.cons (Act.spawn body) rest)

/-- Single-threaded action sequences (no worker spawns). -/
inductive NoSpawn : Acts → Prop where
  | nil : NoSpawn .nil
  | scope {lab body rest} : NoSpawn body → NoSpawn rest →
      NoSpawn (.cons (Act.scope lab body) rest)
  | toggle {b rest} : NoSpawn rest → NoSpawn (.cons (Act.setEnabled b) rest)

theorem mem_addNode {p q : Path} {ns : List Path} (h : p ∈ addNode q ns) :
    p ∈ ns ∨ p = q := by
  unfold addNode at h
  split at h
  · exact Or.inl h
  · rcases List.mem_append.mp h with h' | h'
    · exact Or.inl h'
    · exact Or.inr (List.mem_singleton.mp h')

theorem runActs_cons (st : CallGraph) (a : Act) (rest : Acts) :
    runActs st (.cons a rest) = runActs (runAct st a) rest := rfl

theorem runAct_scope (st : CallGraph) (lab : Nat) (body : Acts) :
    runAct st (.scope lab body) =
      if st.enabled = true then
        if (st.cursor ++ [lab]).length ≤ st.maxDepth then
          { runActs { st with nodes := addNode (st.cursor ++ [lab]) st.nodes,
                              cursor := st.cursor ++ [lab] } body
            with cursor := st.cursor }
        else runActs st body
      else runActs st body := rfl

theorem runAct_spawn (st : CallGraph) (body : Acts) :
    runAct st (.spawn body) =
      (let w := runActs { st with nodes := [], cursor := [] } body
       if st.collapse = true then
         { st with nodes := List.foldl (fun ns q => addNode (st.cursor ++ q) ns) st.nodes w.nodes }
       else st) := rfl

/-- When disabled, the scoped handles and spawned workers are complete
no-ops: the store is unchanged. -/
theorem runActs_disabled {acts : Acts} (h : NoEnable acts) :
    ∀ st : CallGraph, st.enabled = false → runActs st acts = st := by
  induction h with
  | nil => intro st _; rfl
  | scope hb hr ihb ihr =>
    intro st hst
    rw [runActs_cons, runAct_scope, if_neg (by simp [hst]), ihb st hst, ihr st hst]
  | spawn hb hr ihb ihr =>
    intro st hst
    rw [runActs_cons, runAct_spawn, ihb { st with nodes := [], cursor := [] } hst]
    split
    · exact ihr st hst
    · exact ihr st hst

/-- Spawn-free runs preserve the depth clamp and never record a node
deeper than it: if every recorded path respects `maxDepth`, this stays
true after running any single-threaded action sequence. -/
theorem runActs_depth_inv {acts : Acts} (h : NoSpawn acts) :
    ∀ st : CallGraph,
      (runActs st acts).maxDepth = st.maxDepth ∧
      ((∀ p ∈ st.nodes, p.length ≤ st.maxDepth) →
        ∀ p ∈ (runActs st acts).nodes, p.length ≤ st.maxDepth) := by
  induction h with
  | nil => intro st; exact ⟨rfl, fun h _ hp => h _ hp⟩
  | @toggle b rest hr ihr =>
    intro st
    exact ihr { st with enabled := b }
  | @scope lab body rest hb hr ihb ihr =>
    intro st
    rw [runActs_cons, runAct_scope]
    by_cases he : st.enabled = true
    · by_cases hd : (st.cursor ++ [lab]).length ≤ st.maxDepth
      · rw [if_pos he, if_pos hd]
        obtain ⟨hmd1, hnd1⟩ :=
          ihb { st with nodes := addNode (st.cursor ++ [lab]) st.nodes,
                        cursor := st.cursor ++ [lab] }
        obtain ⟨hmd2, hnd2⟩ :=
          ihr { runActs { st with nodes := addNode (st.cursor ++ [lab]) st.nodes,
                                  cursor := st.cursor ++ [lab] } body
                with cursor := st.cursor }
        refine ⟨hmd2.trans hmd1, fun hok p hp => ?_⟩
        have hbase : ∀ q ∈ addNode (st.cursor ++ [lab]) st.nodes, q.length ≤ st.maxDepth := by
          intro q hq
          rcases mem_addNode hq with h' | h'
          · exact hok _ h'
          · exact h' ▸ hd
        have hmid : ∀ q ∈ (runActs { st with nodes := addNode (st.cursor ++ [lab]) st.nodes,
                                             cursor := st.cursor ++ [lab] } body).nodes,
            q.length ≤ st.maxDepth := hnd1 hbase
        have := hnd2 (fun q hq => (hmid q hq).trans_eq hmd1.symm) p hp
        exact this.trans_eq hmd1
      · rw [if_pos he, if_neg hd]
        obtain ⟨hmd1, hnd1⟩ := ihb st
        obtain ⟨hmd2, hnd2⟩ := ihr (runActs st body)
        refine ⟨hmd2.trans hmd1, fun hok p hp => ?_⟩
        have := hnd2 (fun q hq => (hnd1 hok q hq).trans_eq hmd1.symm) p hp
        exact this.trans_eq hmd1
    · rw [if_neg he]
      obtain ⟨hmd1, hnd1⟩ := ihb st
      obtain ⟨hmd2, hnd2⟩ := ihr (runActs st body)
      refine ⟨hmd2.trans hmd1, fun hok p hp => ?_⟩
      have := hnd2 (fun q hq => (hnd1 hok q hq).trans_eq hmd1.symm) p hp
      exact this.trans_eq hmd1

/-! ### The component base class, `components/base/declaration.hpp` -/

namespace component

/-- The state of `tim::component::base<Tp, Value>` (declaration.hpp lines
293-304), for a component with accumulation (`has_accum_v`) and numeric
value type. -/
structure base (V : Type) where
  is_running : Bool := false
  is_on_stack : Bool := false
  is_transient : Bool := false
  is_flat : Bool := false
  depth_change : Bool := false
  laps : Int := 0
  value : V
  accum : V
  deriving Repr, DecidableEq

/-- `base::plus` (declaration.hpp lines 243-248):

```
void plus(const base_type& rhs)
{
    laps += rhs.laps;
    if(rhs.is_transient)
        is_transient = rhs.is_transient;
}
```
-/
def base.plus {V : Type} (a : base V) (rhs : base V) : base V :=
  { a with laps := a.laps + rhs.laps,
           is_transient := if rhs.is_transient then rhs.is_transient else a.is_transient }

/-- Modelled from the spec: a concrete measurement component (§4.1),
carrying the `base` state together with the tracked minimum and maximum
of the observed value; `declaration.hpp` only declares `plus_oper`
(lines 228-241), its definition lives outside the four sources. -/
structure Component extends base Int where
  minVal : Int
  maxVal : Int
  deriving Repr, DecidableEq

/-- Modelled from the spec: compound aggregation `a += b` "adds `accum`
and `laps` and tracks min/max of `value`"; the lap count and transient
fold is the base-class `plus` from the source. -/
def Component.plusOper (a : Component) (rhs : Component) : Component :=
  { { (a.tobase.plus rhs.tobase) with
        value := a.value + rhs.value,
        accum := a.accum + rhs.accum } with
    minVal := min a.minVal rhs.minVal,
    maxVal := max a.maxVal rhs.maxVal }

/-- Modelled from the spec: the scoped component lifecycle around
`base::start` (declared at declaration.hpp lines 153-164, guarded by the
`is_running` flag of lines 293-304; the definition is outside the four
sources).  `start` on an idle component records the baseline and marks it
running; `start` on a running component is a logic error: it is reported
(when the verbosity setting is at least 2) and otherwise dropped, leaving
the component untouched. -/
structure TimerComp where
  is_running : Bool := false
  is_transient : Bool := false
  laps : Int := 0
  value : Int := 0
  accum : Int := 0
  baseline : Int := 0
  deriving Repr, DecidableEq

/-- Modelled from the spec: `start` with the current clock sample `now`
under verbosity `verbose`; returns the new state and the optional logic
error report. -/
def TimerComp.start (c : TimerComp) (now : Int) (verbose : Int) :
    TimerComp × Option String :=
  if c.is_running then
    (c, if 2 ≤ verbose then some "[logic-error] start on running component" else none)
  else
    ({ c with is_running := true, baseline := now }, none)

/-- Modelled from the spec: `stop` folds the interval into the aggregate
and increments the lap count. -/
def TimerComp.stop (c : TimerComp) (now : Int) : TimerComp :=
  if c.is_running then
    { c with is_running := false, is_transient := true,
             value := now - c.baseline, accum := c.accum + (now - c.baseline),
             laps := c.laps + 1 }
  else c

/-- The state of `tim::component::base<Tp, void>` (declaration.hpp lines
350-481): tag-only components have no value, accумulate nothing, and keep
only the three flags (lines 464-467). -/
structure voidBase where
  is_running : Bool := false
  is_on_stack : Bool := false
  is_transient : Bool := false
  deriving Repr, DecidableEq

/-- `base<Tp, void>::implements_storage_v = false` (line 356). -/
def voidBase.implements_storage_v : Bool := false

/-- `int64_t nlaps() const { return 0; }` (line 440). -/
def voidBase.nlaps (_ : voidBase) : Int := 0

/-- `int64_t get_laps() const { return 0; }` (line 441). -/
def voidBase.get_laps (_ : voidBase) : Int := 0

/-- Modelled from the spec: `base<Tp, void>::start` marks the component
running (its definition is outside the four sources; only the flags of
lines 464-467 exist to change). -/
def voidBase.start (c : voidBase) : voidBase := { c with is_running := true }

/-- Modelled from the spec: `base<Tp, void>::stop` marks the component
stopped and transient. -/
def voidBase.stop (c : voidBase) : voidBase :=
  { c with is_running := false, is_transient := true }

/-- Modelled from the spec: a component whose `implements_storage_v` is
`false` never creates graph entries — `insert_node` leaves the store's
node list unchanged (the non-storage overload of declaration.hpp
lines 444-445 is a no-op). -/
def voidBase.insert_node (_ : voidBase) (g : List Path) : List Path := g

/-- Modelled from the spec: the paired no-op `pop_node` (line 447). -/
def voidBase.pop_node (_ : voidBase) (g : List Path) : List Path := g

/-- A start/stop cycle sequence applied to a void component. -/
inductive VOp where
  | start
  | stop
  deriving Repr, DecidableEq

def voidBase.applyOps (c : voidBase) : List VOp → voidBase
  | [] => c
  | VOp.start :: rest => voidBase.applyOps c.start rest
  | VOp.stop :: rest => voidBase.applyOps c.stop rest

end component

/-! ### Claims C1-C6, C8 -/

/-- C1: with instrumentation enabled, unlimited max depth and TREE scope,
running the measured sequence `fib(37), fib(39), fib(41), fib(43),
fib(45), fib(41), fib(37), fib(45)` (auto-timer on every recursive call
with `n > 36`, each top-level call wrapped in a labeled timer) leaves
exactly 31 distinct nodes in the per-thread call-graph store. -/
theorem claim_C1 :
    (runActs (initStore true max_depth_default) scenario_manager).nodes.length = 31 := by
  rw [scenario_manager_eq]
  decide!

/-- C2: with `max_depth = 3`, the three measured calls `fib(40), fib(41),
fib(42)` under one enclosing auto-timer produce exactly 7 nodes; an
insertion that would create a node at depth greater than `max_depth` is
skipped, the cursor is not advanced and the paired pop is a no-op (the
handle degenerates to running its body on the unchanged store); and for
every node ever recorded by a single-threaded run, its depth does not
exceed the `max_depth` in force. -/
theorem claim_C2 :
    (runActs (initStore true 3) scenario_depth).nodes.length = 7 ∧
    (∀ (st : CallGraph) (lab : Nat) (body : Acts),
      st.enabled = true → ¬ (st.cursor ++ [lab]).length ≤ st.maxDepth →
      runAct st (Act.scope lab body) = runActs st body) ∧
    (∀ acts : Acts, NoSpawn acts → ∀ st : CallGraph,
      (∀ p ∈ st.nodes, p.length ≤ st.maxDepth) →
      ∀ p ∈ (runActs st acts).nodes, p.length ≤ st.maxDepth) := by
  refine ⟨?_, ?_, ?_⟩
  · rw [scenario_depth_eq]
    decide!
  · intro st lab body he hd
    rw [runAct_scope, if_pos he, if_neg hd]
  · intro acts h st hok
    exact (runActs_depth_inv h st).2 hok

theorem claim_C2_witness :
    runAct (initStore true 0) (Act.scope 5 Acts.nil) = runActs (initStore true 0) Acts.nil ∧
    ([1] : Path).length ≤ 3 :=
  ⟨claim_C2.2.1 (initStore true 0) 5 Acts.nil rfl (by decide),
   claim_C2.2.2 Acts.nil NoSpawn.nil
     { enabled := true, maxDepth := 3, collapse := true, nodes := [[1]], cursor := [] }
     (by decide) [1] (by decide)⟩

/-- C3: when the global `enabled` setting is false, scoped handles are
no-ops — a measured `fib(45)` under a handle while disabled records zero
nodes; disabling mid-scope (one enabled `fib(45)`, then `enable(false)`,
then a measured `fib(43)`) leaves exactly the 11 nodes recorded before
disabling; and in general a disabled store is left completely unchanged
by any toggle-free action sequence. -/
theorem claim_C3 :
    (runActs (initStore false max_depth_default) scenario_toggle_off).nodes.length = 0 ∧
    (runActs (initStore true max_depth_default) scenario_toggle_mid).nodes.length = 11 ∧
    (∀ acts : Acts, NoEnable acts → ∀ st : CallGraph,
      st.enabled = false → runActs st acts = st) := by
  refine ⟨?_, ?_, ?_⟩
  · rw [scenario_toggle_off_eq]
    decide!
  · rw [scenario_toggle_mid_eq]
    decide!
  · intro acts h st hst
    exact runActs_disabled h st hst

theorem claim_C3_witness :
    runActs (initStore false 3) (Acts.cons (Act.scope 7 Acts.nil) Acts.nil) =
      initStore false 3 :=
  claim_C3.2.2 _ (NoEnable.scope NoEnable.nil NoEnable.nil) (initStore false 3) rfl

/-- C4: spawning 16 workers each computing a measured `fib(43)` or
`fib(44)`, joining them, and finalizing with `collapse_threads = true`
yields exactly 36 nodes in the merged master tree; the workers'
sub-trees sit beneath the `create_thread` node that was current at
thread creation (witnessed by the two stitched `time_fibonacci` paths
being present in the master store). -/
theorem claim_C4 :
    (runActs (initStore true max_depth_default) scenario_thread).nodes.length = 36 ∧
    [hThreadFn, hThreads16, hCreate, hTF 43] ∈
      (runActs (initStore true max_depth_default) scenario_thread).nodes ∧
    [hThreadFn, hThreads16, hCreate, hTF 44] ∈
      (runActs (initStore true max_depth_default) scenario_thread).nodes := by
  refine ⟨?_, ?_, ?_⟩ <;> rw [scenario_thread_eq] <;> decide!

/-- C5: for components of one type, the compound aggregation `a += b`
adds `b`'s `accum` into `a`'s `accum`, adds `b`'s `laps` into `a`'s
`laps`, and updates the tracked minimum and maximum of the value; the
base-class fold `base::plus` adds the laps and propagates `is_transient`
from the right-hand side. -/
theorem claim_C5 (a rhs : component.Component) :
    (a.plusOper rhs).accum = a.accum + rhs.accum ∧
    (a.plusOper rhs).laps = a.laps + rhs.laps ∧
    (a.plusOper rhs).minVal = min a.minVal rhs.minVal ∧
    (a.plusOper rhs).maxVal = max a.maxVal rhs.maxVal ∧
    (a.tobase.plus rhs.tobase).laps = a.laps + rhs.laps ∧
    (a.tobase.plus rhs.tobase).is_transient = (a.is_transient || rhs.is_transient) ∧
    (a.plusOper rhs).is_transient = (a.is_transient || rhs.is_transient) := by
  refine ⟨rfl, rfl, rfl, rfl, rfl, ?_, ?_⟩ <;>
    cases hb : rhs.tobase.is_transient <;>
      simp [component.Component.plusOper, component.base.plus, hb]

/-- C6: `start` on an already-running component is a logic error that is
reported (a log entry exists exactly when verbosity is at least 2) but
not fatal: the redundant start is dropped and the prior state — value,
accum, laps and the running baseline — is preserved unchanged. -/
theorem claim_C6 (c : component.TimerComp) (now verbose : Int)
    (h : c.is_running = true) :
    (c.start now verbose).1 = c ∧
    ((c.start now verbose).2.isSome = true ↔ 2 ≤ verbose) := by
  constructor
  · simp [component.TimerComp.start, h]
  · rcases le_or_lt 2 verbose with hv | hv
    · simp [component.TimerComp.start, h, hv]
    · simp [component.TimerComp.start, h, not_le.mpr hv]

theorem claim_C6_witness :
    ((⟨true, false, 0, 0, 0, 0⟩ : component.TimerComp).start 5 2).1 =
      (⟨true, false, 0, 0, 0, 0⟩ : component.TimerComp) ∧
    ((((⟨true, false, 0, 0, 0, 0⟩ : component.TimerComp).start 5 2).2.isSome = true) ↔
      (2 : Int) ≤ 2) :=
  claim_C6 ⟨true, false, 0, 0, 0, 0⟩ 5 2 rfl

/-! ### String machinery: find-and-replace loops

Both `tim::filepath::replace` (timer.hpp lines 238-254) and the
`_replace` lambda of `settings::format` (settings.cpp lines 232-236) are
the same loop: find the first occurrence of a pattern, splice in the
replacement, repeat until no occurrence remains.  The loop is embedded
with a fuel argument; the wrapper `replaceAll` passes `s.length + 1`
fuel, which suffices for every instantiation in the sources (the pattern
is either longer than its replacement, so each iteration shortens the
string, or it contains a character the replacement lacks, so each
iteration consumes one such character; both counts are at most
`s.length`). -/

/-- An embedded C++ `std::string`. -/
abbrev Str := List Char

/-- `firstSplit p s = some (a, b)` iff `p` occurs in `s` and the
earliest occurrence splits `s` as `a ++ p ++ b` (that is,
`s.find(p) = a.length`); `none` iff `find` returns `npos`. -/
def firstSplit (p : Str) : Str → Option (Str × Str)
  | [] => if p.isPrefixOf [] then some ([], []) else none
  | c :: t =>
      if p.isPrefixOf (c :: t) then some ([], (c :: t).drop p.length)
      else (firstSplit p t).map fun ab => (c :: ab.1, ab.2)

/-- Does `p` occur as a contiguous substring of `s`? -/
def occursIn (p : Str) : Str → Bool
  | [] => p.isPrefixOf []
  | c :: t => p.isPrefixOf (c :: t) || occursIn p t

/-- The find-and-replace loop with explicit fuel. -/
def replaceAllF (p v : Str) : Nat → Str → Str
  | 0, s => s
  | fuel + 1, s =>
      match firstSplit p s with
      | none => s
      | some (a, b) => replaceAllF p v fuel (a ++ v ++ b)

/-- The find-and-replace loop, with fuel sufficient for every use in
this development. -/
def replaceAll (p v : Str) (s : Str) : Str := replaceAllF p v (s.length + 1) s

theorem isPrefixOf_nil {p : Str} : p.isPrefixOf ([] : Str) = true ↔ p = [] := by
  cases p <;> simp [List.isPrefixOf]

theorem isPrefixOf_append {p : Str} : ∀ {s : Str}, p.isPrefixOf s = true →
    s = p ++ s.drop p.length := by
  induction p with
  | nil => intro s _; simp
  | cons a p ih =>
    intro s h
    cases s with
    | nil => simp [List.isPrefixOf] at h
    | cons b t =>
      simp only [List.isPrefixOf, Bool.and_eq_true, beq_iff_eq] at h
      obtain ⟨rfl, ht⟩ := h
      simpa using ih ht

theorem firstSplit_sound {p : Str} :
    ∀ {s a b : Str}, firstSplit p s = some (a, b) → s = a ++ p ++ b := by
  intro s
  induction s with
  | nil =>
    intro a b h
    simp only [firstSplit] at h
    split at h
    · rename_i hp
      simp only [Option.some.injEq, Prod.mk.injEq] at h
      obtain ⟨rfl, rfl⟩ := h
      simp [isPrefixOf_nil.mp hp]
    · exact absurd h (by simp)
  | cons c t ih =>
    intro a b h
    simp only [firstSplit] at h
    split at h
    · rename_i hp
      simp only [Option.some.injEq, Prod.mk.injEq] at h
      obtain ⟨rfl, rfl⟩ := h
      simpa using isPrefixOf_append hp
    · cases hfs : firstSplit p t with
      | none => rw [hfs] at h; simp at h
      | some ab =>
        rw [hfs] at h
        obtain ⟨a', b'⟩ := ab
        simp only [Option.map_some', Option.some.injEq, Prod.mk.injEq] at h
        obtain ⟨rfl, rfl⟩ := h
        have := ih hfs
        simp [this]

theorem firstSplit_none_iff {p : Str} :
    ∀ {s : Str}, firstSplit p s = none ↔ occursIn p s = false := by
  intro s
  induction s with
  | nil =>
    simp only [firstSplit, occursIn]
    split <;> rename_i hp <;> simp [hp]
  | cons c t ih =>
    simp only [firstSplit, occursIn]
    split <;> rename_i hp
    · simp [hp]
    · cases hfs : firstSplit p t with
      | none => simp [hp, ih.mp hfs]
      | some ab =>
        have hocc : occursIn p t = true := by
          by_contra hc
          rw [Bool.not_eq_true] at hc
          rw [ih.mpr hc] at hfs
          exact absurd hfs (by simp)
        simp [hp, hfs, hocc]

theorem occursIn_single {c : Char} : ∀ {s : Str}, occursIn [c] s = true ↔ c ∈ s := by
  intro s
  induction s with
  | nil => simp [occursIn, List.isPrefixOf]
  | cons x t ih =>
    show (List.isPrefixOf [c] (x :: t) || occursIn [c] t) = true ↔ c ∈ x :: t
    have hpfx : List.isPrefixOf [c] (x :: t) = (c == x) := by
      simp [List.isPrefixOf]
    rw [hpfx]
    simp [ih, List.mem_cons]

theorem replaceAll_no_occ {p v : Str} {s : Str} (h : occursIn p s = false) :
    replaceAll p v s = s := by
  unfold replaceAll replaceAllF
  rw [firstSplit_none_iff.mpr h]

/-- Replacing a character by a string that lacks it removes every
occurrence of the character, provided the fuel exceeds the number of
occurrences (as the wrapper's fuel does). -/
theorem replaceAllF_char_elim {c : Char} {v : Str} (hv : c ∉ v) :
    ∀ (fuel : Nat) (s : Str), s.count c < fuel →
      c ∉ replaceAllF [c] v fuel s := by
  intro fuel
  induction fuel with
  | zero => intro s h; exact absurd h (Nat.not_lt_zero _)
  | succ fuel ih =>
    intro s hcount
    unfold replaceAllF
    cases hfs : firstSplit [c] s with
    | none =>
      have hocc : occursIn [c] s = false := firstSplit_none_iff.mp hfs
      intro hmem
      rw [occursIn_single.mpr hmem] at hocc
      exact absurd hocc (by simp)
    | some ab =>
      obtain ⟨a, b⟩ := ab
      have hs : s = a ++ [c] ++ b := firstSplit_sound hfs
      apply ih
      have hcv : v.count c = 0 := List.count_eq_zero.mpr hv
      subst hs
      simp only [List.count_append, hcv, List.count_cons, List.count_nil] at hcount ⊢
      simp only [beq_self_eq_true, if_true, Nat.add_zero, Nat.zero_add] at hcount ⊢
      omega

/-- Replacing a pattern by a strictly shorter string removes every
occurrence of the pattern, provided the fuel exceeds the length (as the
wrapper's fuel does). -/
theorem replaceAllF_shrink_elim {p v : Str} (hlen : v.length < p.length) :
    ∀ (fuel : Nat) (s : Str), s.length < fuel →
      occursIn p (replaceAllF p v fuel s) = false := by
  intro fuel
  induction fuel with
  | zero => intro s h; exact absurd h (Nat.not_lt_zero _)
  | succ fuel ih =>
    intro s hl
    unfold replaceAllF
    cases hfs : firstSplit p s with
    | none => exact firstSplit_none_iff.mp hfs
    | some ab =>
      obtain ⟨a, b⟩ := ab
      have hs : s = a ++ p ++ b := firstSplit_sound hfs
      apply ih
      subst hs
      simp only [List.length_append] at hl ⊢
      omega

/-- Characters of the replaced string come from the original or the
replacement. -/
theorem replaceAllF_chars {p v : Str} :
    ∀ (fuel : Nat) (s : Str) (x : Char), x ∈ replaceAllF p v fuel s →
      x ∈ s ∨ x ∈ v := by
  intro fuel
  induction fuel with
  | zero => intro s x h; exact Or.inl h
  | succ fuel ih =>
    intro s x h
    unfold replaceAllF at h
    cases hfs : firstSplit p s with
    | none => rw [hfs] at h; exact Or.inl h
    | some ab =>
      obtain ⟨a, b⟩ := ab
      rw [hfs] at h
      have hs : s = a ++ p ++ b := firstSplit_sound hfs
      rcases ih _ _ h with h' | h'
      · simp only [List.mem_append] at h'
        rcases h' with (h' | h') | h'
        · exact Or.inl (by subst hs; simp [h'])
        · exact Or.inr h'
        · exact Or.inl (by subst hs; simp [h'])
      · exact Or.inr h'

/-! ### `tim::filepath` (timer.hpp, filepath utility section) -/

namespace filepath

/-- `filepath::replace(std::string& _path, char _c, const char* _v)`
(lines 238-245): replace each occurrence of the character `_c` by the
string `_v`, scanning from the front each time. -/
def replace (path : Str) (c : Char) (v : Str) : Str := replaceAll [c] v path

/-- `filepath::replace(std::string& _path, const char* _c, const char* _v)`
(lines 247-254): the same loop with a string pattern. -/
def replaceStr (path : Str) (p v : Str) : Str := replaceAll p v path

/-- `filepath::canonical` (lines 306-312):

```
inline std::string canonical(std::string _path)
{
    replace(_path, '\\', "/");
    replace(_path, "//", "/");
    return _path;
}
```
-/
def canonical (path : Str) : Str :=
  replaceStr (replace path '\\' ['/']) ['/', '/'] ['/']

theorem canonical_no_backslash (path : Str) : '\\' ∉ canonical path := by
  intro hmem
  unfold canonical replaceStr replace at hmem
  rcases replaceAllF_chars _ _ _ hmem with h | h
  · exact replaceAllF_char_elim (by simp) _ path
      (Nat.lt_succ_of_le (List.count_le_length _ _)) h
  · simp at h

theorem canonical_no_doubleslash (path : Str) :
    occursIn ['/', '/'] (canonical path) = false := by
  unfold canonical replaceStr
  exact replaceAllF_shrink_elim (by simp) _ _ (Nat.lt_succ_self _)

theorem canonical_idem (path : Str) : canonical (canonical path) = canonical path := by
  have h1 : replace (canonical path) '\\' ['/'] = canonical path := by
    unfold replace
    apply replaceAll_no_occ
    cases h : occursIn ['\\'] (canonical path) with
    | false => rfl
    | true => exact absurd (occursIn_single.mp h) (canonical_no_backslash path)
  show replaceStr (replace (canonical path) '\\' ['/']) ['/', '/'] ['/'] = canonical path
  rw [h1]
  exact replaceAll_no_occ (canonical_no_doubleslash path)

end filepath

/-- C9: `filepath::canonical` is idempotent, and its result contains no
backslash and no occurrence of the two-character substring `"//"`. -/
theorem claim_C9 (path : Str) :
    filepath.canonical (filepath.canonical path) = filepath.canonical path ∧
    '\\' ∉ filepath.canonical path ∧
    occursIn ['/', '/'] (filepath.canonical path) = false :=
  ⟨filepath.canonical_idem path, filepath.canonical_no_backslash path,
   filepath.canonical_no_doubleslash path⟩

/-- C8: components with void value type never contribute to storage —
after any sequence of start/stop cycles, `nlaps()` and `get_laps()`
return 0, `implements_storage_v` is false, and `insert_node`/`pop_node`
leave the node store untouched. -/
theorem claim_C8 (c : component.voidBase) (ops : List component.VOp) :
    (c.applyOps ops).nlaps = 0 ∧
    (c.applyOps ops).get_laps = 0 ∧
    component.voidBase.implements_storage_v = false ∧
    (∀ g : List Path, (c.applyOps ops).insert_node g = g ∧ (c.applyOps ops).pop_node g = g) :=
  ⟨rfl, rfl, rfl, fun _ => ⟨rfl, rfl⟩⟩

/-! ### `settings::read`, text branch (settings.cpp lines 1692-1850) -/

namespace settings

/-- The delimiter set of `tim::delimit(line, "\n\t=,; ")`. -/
def delimiters : Str := ['\n', '\t', '=', ',', ';', ' ']

/-- Tokenizer worker: accumulates the current token (reversed) while
scanning; delimiters close the token, empty tokens are dropped. -/
def delimitAcc : Str → Str → List Str
  | [], acc => if acc.isEmpty then [] else [acc.reverse]
  | c :: t, acc =>
      if c ∈ delimiters then
        (if acc.isEmpty then [] else [acc.reverse]) ++ delimitAcc t []
      else delimitAcc t (c :: acc)

/-- `tim::delimit(line, "\n\t=,; ")`: split into the maximal runs of
non-delimiter characters. -/
def delimit (s : Str) : List Str := delimitAcc s []

/-- `std::isgraph` in the default locale: printable and not space. -/
def isgraph (c : Char) : Bool := 33 ≤ c.toNat && c.toNat ≤ 126

/-- The `_is_comment` lambda (lines 1697-1717): after stripping leading
whitespace, the line is a comment iff its first graphical character is
`#`, or it has no graphical character at all. -/
def lineIsComment (s : Str) : Bool :=
  match s.find? (fun c => isgraph c) with
  | none => true
  | some c => c == '#'

/-- A known setting: the keys that `vsettings::matches` accepts for it
and its current value as a string.  Modelled from the spec: the
`matches` member is defined outside the four sources; matching is by
exact key. -/
structure Setting where
  keys : List Str
  value : Str

def Setting.matches (s : Setting) (key : Str) : Bool := s.keys.contains key

/-- The `_resolve_variable` lambda (lines 1723-1744), with fuel for its
unbounded recursion (the C++ recursion diverges on cyclic variable
definitions): `$env:NAME` resolves through the environment, `$NAME`
through the variable map and then through the settings values; a `$`
name that resolves nowhere is returned with the `$` stripped. -/
def resolveVarF (env : Str → Option Str) (settings : List Setting)
    (vars : List (Str × Str)) : Nat → Str → Str
  | 0, v => v
  | fuel + 1, v =>
      if v.isEmpty then v
      else if v.head? ≠ some '$' then v
      else if ['$', 'e', 'n', 'v', ':'].isPrefixOf v then
        resolveVarF env settings vars fuel ((env (v.drop 5)).getD [])
      else
        match vars.find? (fun kv => kv.1 == v) with
        | some kv => resolveVarF env settings vars fuel kv.2
        | none =>
            let v' := v.drop 1
            match settings.find? (fun s => s.matches v') with
            | some s => resolveVarF env settings vars fuel s.value
            | none => v'

/-- Combine the value tokens (lines 1765-1775): tokens that are `#` or
start with `#` are skipped, the rest are comma-joined after variable
resolution, and the leading comma is removed. -/
def buildVal (resolve : Str → Str) (toks : List Str) : Str :=
  let raw := toks.foldl
    (fun acc tok => if tok.head? = some '#' then acc else acc ++ [','] ++ resolve tok) []
  match raw with
  | ',' :: rest => rest
  | other => other

/-- Fold state of the text-reading loop: the `expected`/`valid` counters,
the variable map, the unknown-config record, the environment exports
performed via `tim::set_env`, and the `(key, value)` pairs actually
parsed into settings. -/
structure ReadState where
  expected : Nat
  valid : Nat
  vars : List (Str × Str)
  unknowns : List (Str × Str)
  envOut : List (Str × Str)
  applied : List (Str × Str)

def initReadState : ReadState := ⟨0, 0, [], [], [], []⟩

/-- `m_unknown_configs.emplace_back` guarded by the `std::any_of`
duplicate check (lines 1825-1831; `std::tie` equality is pairwise
equality, i.e. membership). -/
def addUnknown (kv : Str × Str) (l : List (Str × Str)) : List (Str × Str) :=
  if kv ∈ l then l else l ++ [kv]

/-- One iteration of the `while(ifs)` loop (lines 1746-1846) on an
already-read line. `keyPfx` stands for `TIMEMORY_SETTINGS_PREFIX`
(modelled from the spec: the macro is defined outside the four sources),
`rfuel` bounds the variable-resolution recursion. -/
def readLine (stgs : List Setting) (env : Str → Option Str) (keyPfx : Str)
    (rfuel : Nat) (st : ReadState) (line : Str) : ReadState :=
  if line.isEmpty then st
  else if lineIsComment line then st
  else
    let st1 := { st with expected := st.expected + 1 }
    match delimit line with
    | [] => st1
    | key :: toks =>
        let val := buildVal (resolveVarF env stgs st.vars rfuel) toks
        if key.isEmpty then st1
        else if key.head? = some '#' then st1
        else if key.head? = some '$' then { st1 with vars := st1.vars ++ [(key, val)] }
        else
          let ms := stgs.filter (fun s => s.matches key)
          if 0 < ms.length then
            { st1 with valid := st1.valid + ms.length,
                       applied := st1.applied ++ ms.map (fun _ => (key, val)) }
          else if keyPfx.isPrefixOf (key.map Char.toUpper) then
            { st1 with envOut := st1.envOut ++ [(key, val)],
                       unknowns := addUnknown (key, val) st1.unknowns }
          else st1

/-- The text branch of `settings::read`: process every line, then return
`(expected == valid)`. -/
def readText (stgs : List Setting) (env : Str → Option Str) (keyPfx : Str)
    (rfuel : Nat) (lines : List Str) : ReadState × Bool :=
  let fin := lines.foldl (readLine stgs env keyPfx rfuel) initReadState
  (fin, fin.expected == fin.valid)

/-- Does the line count toward `expected`? -/
def lineCounted (l : Str) : Bool := !l.isEmpty && !lineIsComment l

/-- Is the token list a variable definition (`$NAME = ...`)? -/
def keyIsVar : List Str → Bool
  | key :: _ => key.head? == some '$'
  | [] => false

/-- Is the line a variable definition? -/
def lineIsVar (l : Str) : Bool := keyIsVar (delimit l)

/-- Does the token list's key match at least one known setting? -/
def keyMatched (stgs : List Setting) : List Str → Bool
  | key :: _ => stgs.any (fun s => s.matches key)
  | [] => false

/-- Does the line's key match at least one known setting? -/
def lineMatched (stgs : List Setting) (l : Str) : Bool := keyMatched stgs (delimit l)

/-- Is the token list a well-formed setting line with a matched key? -/
def keyOk (stgs : List Setting) : List Str → Bool
  | [] => false
  | key :: _ =>
      !key.isEmpty && !(key.head? == some '#') && !(key.head? == some '$') &&
      stgs.any (fun s => s.matches key)

/-- Does the line contribute one `valid` tick, i.e. is it a well-formed
setting line whose key matches a known setting? -/
def lineOk (stgs : List Setting) (l : Str) : Bool := keyOk stgs (delimit l)

/-- Is the token list's key unmatched but carrying the settings prefix
(after upper-casing)? -/
def keyUnknownPfx (stgs : List Setting) (keyPfx : Str) : List Str → Bool
  | [] => false
  | key :: _ =>
      !key.isEmpty && !(key.head? == some '#') && !(key.head? == some '$') &&
      !(stgs.any (fun s => s.matches key)) && keyPfx.isPrefixOf (key.map Char.toUpper)

/-- Is the line's key unmatched but carrying the settings prefix? -/
def lineUnknownPfx (stgs : List Setting) (keyPfx : Str) (l : Str) : Bool :=
  lineCounted l && keyUnknownPfx stgs keyPfx (delimit l)

/-- The `expected` increment a line causes. -/
def eOf (l : Str) : Nat := if lineCounted l then 1 else 0

/-- The `valid` increment the key tokens cause. -/
def vOfKey (stgs : List Setting) : List Str → Nat
  | [] => 0
  | key :: _ =>
      if key.isEmpty then 0
      else if key.head? = some '#' then 0
      else if key.head? = some '$' then 0
      else (stgs.filter (fun s => s.matches key)).length

/-- The `valid` increment a line causes. -/
def vOf (stgs : List Setting) (l : Str) : Nat :=
  if lineCounted l then vOfKey stgs (delimit l) else 0

theorem readLine_expected (stgs : List Setting) (env : Str → Option Str) (keyPfx : Str)
    (rfuel : Nat) (st : ReadState) (l : Str) :
    (readLine stgs env keyPfx rfuel st l).expected = st.expected + eOf l := by
  unfold readLine eOf lineCounted
  by_cases h1 : l.isEmpty = true
  · simp [h1]
  · by_cases h2 : lineIsComment l = true
    · simp [h1, h2]
    · simp only [h1, h2, if_false, Bool.not_true, Bool.not_false, Bool.and_self, if_true]
      cases hd : delimit l with
      | nil => simp [h1, h2]
      | cons key toks =>
        simp only [h1, h2]
        repeat' split
        all_goals simp_all

theorem readLine_valid (stgs : List Setting) (env : Str → Option Str) (keyPfx : Str)
    (rfuel : Nat) (st : ReadState) (l : Str) :
    (readLine stgs env keyPfx rfuel st l).valid = st.valid + vOf stgs l := by
  unfold readLine vOf lineCounted
  by_cases h1 : l.isEmpty = true
  · simp [h1]
  · by_cases h2 : lineIsComment l = true
    · simp [h1, h2]
    · simp only [h1, h2, if_false, Bool.not_true, Bool.not_false, Bool.and_self, if_true]
      cases hd : delimit l with
      | nil => simp [h1, h2, vOfKey]
      | cons key toks =>
        simp only [h1, h2]
        repeat' split
        all_goals first
          | rfl
          | simp_all [vOfKey]

theorem vOf_le_eOf {stgs : List Setting}
    (hsingle : ∀ key : Str, (stgs.filter (fun s => s.matches key)).length ≤ 1)
    (l : Str) : vOf stgs l ≤ eOf l := by
  unfold vOf eOf
  by_cases h1 : lineCounted l = true
  · simp only [h1, if_true]
    cases hd : delimit l with
    | nil => simp [vOfKey]
    | cons key toks =>
      by_cases hk1 : key.isEmpty = true
      · simp [vOfKey, hk1]
      · by_cases hk2 : key.head? = some '#'
        · simp [vOfKey, hk1, hk2]
        · by_cases hk3 : key.head? = some '$'
          · simp [vOfKey, hk1, hk2, hk3]
          · simpa [vOfKey, hk1, hk2, hk3] using hsingle key
  · simp [h1]

theorem foldl_readLine_expected (stgs : List Setting) (env : Str → Option Str)
    (keyPfx : Str) (rfuel : Nat) :
    ∀ (lines : List Str) (st : ReadState),
      (lines.foldl (readLine stgs env keyPfx rfuel) st).expected =
        st.expected + (lines.map eOf).sum := by
  intro lines
  induction lines with
  | nil => intro st; simp
  | cons l rest ih =>
    intro st
    simp only [List.foldl_cons, List.map_cons, List.sum_cons]
    rw [ih, readLine_expected]
    omega

theorem foldl_readLine_valid (stgs : List Setting) (env : Str → Option Str)
    (keyPfx : Str) (rfuel : Nat) :
    ∀ (lines : List Str) (st : ReadState),
      (lines.foldl (readLine stgs env keyPfx rfuel) st).valid =
        st.valid + (lines.map (vOf stgs)).sum := by
  intro lines
  induction lines with
  | nil => intro st; simp
  | cons l rest ih =>
    intro st
    simp only [List.foldl_cons, List.map_cons, List.sum_cons]
    rw [ih, readLine_valid]
    omega

theorem sum_eq_iff_pointwise {f g : Str → Nat} (hle : ∀ l, g l ≤ f l) :
    ∀ lines : List Str,
      ((lines.map f).sum = (lines.map g).sum ↔ ∀ l ∈ lines, f l = g l) := by
  intro lines
  induction lines with
  | nil => simp
  | cons l rest ih =>
    simp only [List.map_cons, List.sum_cons, List.mem_cons]
    constructor
    · intro h
      have h1 : (rest.map g).sum ≤ (rest.map f).sum := by
        clear h ih
        induction rest with
        | nil => simp
        | cons x t iht => simp only [List.map_cons, List.sum_cons]; have := hle x; omega
      have hf : f l = g l := by have := hle l; omega
      have hr : (rest.map f).sum = (rest.map g).sum := by omega
      intro x hx
      rcases hx with rfl | hx
      · exact hf
      · exact ih.mp hr x hx
    · intro h
      rw [h l (Or.inl rfl), ih.mpr (fun x hx => h x (Or.inr hx))]

theorem any_iff_filter_pos (p : Setting → Bool) (l : List Setting) :
    l.any p = true ↔ 0 < (l.filter p).length := by
  constructor
  · intro h
    rcases List.any_eq_true.mp h with ⟨x, hx, hpx⟩
    have : x ∈ l.filter p := List.mem_filter.mpr ⟨hx, hpx⟩
    exact List.length_pos.mpr (List.ne_nil_of_mem this)
  · intro h
    cases hf : l.filter p with
    | nil => rw [hf] at h; simp at h
    | cons y ys =>
      have hy : y ∈ l.filter p := by rw [hf]; exact List.mem_cons_self _ _
      obtain ⟨hmem, hp⟩ := List.mem_filter.mp hy
      exact List.any_eq_true.mpr ⟨y, hmem, hp⟩

theorem exists_mem_iff_filter_pos (p : Setting → Bool) (l : List Setting) :
    (∃ x ∈ l, p x = true) ↔ 0 < (l.filter p).length := by
  rw [← any_iff_filter_pos]
  exact List.any_eq_true.symm

/-- A counted line contributes equally to `expected` and `valid` exactly
when it is a well-formed, matched setting line. -/
theorem eOf_eq_vOf_iff {stgs : List Setting}
    (hsingle : ∀ key : Str, (stgs.filter (fun s => s.matches key)).length ≤ 1)
    (l : Str) :
    eOf l = vOf stgs l ↔ (lineCounted l = true → lineOk stgs l = true) := by
  unfold eOf vOf lineOk
  by_cases h1 : lineCounted l
  · simp only [h1, if_true, true_imp_iff]
    cases hd : delimit l with
    | nil => simp [vOfKey, keyOk]
    | cons key toks =>
      by_cases hk1 : key.isEmpty
      · simp [vOfKey, keyOk, hk1]
      · by_cases hk2 : key.head? = some '#'
        · simp [vOfKey, keyOk, hk1, hk2]
        · by_cases hk3 : key.head? = some '$'
          · simp [vOfKey, keyOk, hk1, hk2, hk3]
          · have hs := hsingle key
            simp [vOfKey, keyOk, hk1, hk2, hk3, exists_mem_iff_filter_pos]
            omega
  · simp [h1]

theorem mem_addUnknown (kv : Str × Str) (l : List (Str × Str)) :
    kv ∈ addUnknown kv l := by
  unfold addUnknown
  split
  · assumption
  · simp

theorem mem_addUnknown_mono {kv kv' : Str × Str} {l : List (Str × Str)}
    (h : kv' ∈ l) : kv' ∈ addUnknown kv l := by
  unfold addUnknown
  split
  · exact h
  · exact List.mem_append_left _ h

/-- The five result shapes of a single line-processing step. -/
theorem readLine_cases (stgs : List Setting) (env : Str → Option Str) (keyPfx : Str)
    (rfuel : Nat) (st : ReadState) (l : Str) :
    readLine stgs env keyPfx rfuel st l = st ∨
    readLine stgs env keyPfx rfuel st l = { st with expected := st.expected + 1 } ∨
    (∃ kv, readLine stgs env keyPfx rfuel st l =
      { st with expected := st.expected + 1, vars := st.vars ++ [kv] }) ∨
    (∃ kv n, (stgs.any fun s => s.matches kv.1) = true ∧
      readLine stgs env keyPfx rfuel st l =
      { st with expected := st.expected + 1, valid := st.valid + n,
                applied := st.applied ++ List.replicate n kv }) ∨
    (∃ kv, readLine stgs env keyPfx rfuel st l =
      { st with expected := st.expected + 1,
                envOut := st.envOut ++ [kv],
                unknowns := addUnknown kv st.unknowns }) := by
  by_cases h1 : l.isEmpty = true
  · exact Or.inl (by simp [readLine, h1])
  · by_cases h2 : lineIsComment l = true
    · exact Or.inl (by simp [readLine, h1, h2])
    · cases hd : delimit l with
      | nil => exact Or.inr (Or.inl (by simp [readLine, h1, h2, hd]))
      | cons key toks =>
        by_cases hk1 : key.isEmpty = true
        · exact Or.inr (Or.inl (by simp [readLine, h1, h2, hd, hk1]))
        · by_cases hk2 : key.head? = some '#'
          · exact Or.inr (Or.inl (by simp [readLine, h1, h2, hd, hk1, hk2]))
          · by_cases hk3 : key.head? = some '$'
            · refine Or.inr (Or.inr (Or.inl
                ⟨(key, buildVal (resolveVarF env stgs st.vars rfuel) toks), ?_⟩))
              simp [readLine, h1, h2, hd, hk1, hk2, hk3]
            · by_cases hm : 0 < (stgs.filter (fun s => s.matches key)).length
              · refine Or.inr (Or.inr (Or.inr (Or.inl
                  ⟨(key, buildVal (resolveVarF env stgs st.vars rfuel) toks),
                   (stgs.filter (fun s => s.matches key)).length, ?_, ?_⟩)))
                · exact List.any_eq_true.mpr
                    ((exists_mem_iff_filter_pos (fun s => s.matches key) stgs).mpr hm)
                · simp [readLine, h1, h2, hd, hk1, hk2, hk3, hm, List.map_const']
              · by_cases hp : keyPfx.isPrefixOf (key.map Char.toUpper) = true
                · refine Or.inr (Or.inr (Or.inr (Or.inr
                    ⟨(key, buildVal (resolveVarF env stgs st.vars rfuel) toks), ?_⟩)))
                  simp [readLine, h1, h2, hd, hk1, hk2, hk3, hm, hp]
                · exact Or.inr (Or.inl (by simp [readLine, h1, h2, hd, hk1, hk2, hk3, hm, hp]))

theorem readLine_envOut_mono (stgs : List Setting) (env : Str → Option Str)
    (keyPfx : Str) (rfuel : Nat) (st : ReadState) (l : Str) {kv : Str × Str}
    (h : kv ∈ st.envOut) : kv ∈ (readLine stgs env keyPfx rfuel st l).envOut := by
  rcases readLine_cases stgs env keyPfx rfuel st l with
    he | he | ⟨kv', he⟩ | ⟨kv', n, _, he⟩ | ⟨kv', he⟩ <;>
    rw [he] <;> first | exact h | exact List.mem_append_left _ h

theorem readLine_unknowns_mono (stgs : List Setting) (env : Str → Option Str)
    (keyPfx : Str) (rfuel : Nat) (st : ReadState) (l : Str) {kv : Str × Str}
    (h : kv ∈ st.unknowns) : kv ∈ (readLine stgs env keyPfx rfuel st l).unknowns := by
  rcases readLine_cases stgs env keyPfx rfuel st l with
    he | he | ⟨kv', he⟩ | ⟨kv', n, _, he⟩ | ⟨kv', he⟩ <;>
    rw [he] <;> first | exact h | exact mem_addUnknown_mono h

theorem foldl_envOut_mono (stgs : List Setting) (env : Str → Option Str)
    (keyPfx : Str) (rfuel : Nat) :
    ∀ (lines : List Str) (st : ReadState) {kv : Str × Str}, kv ∈ st.envOut →
      kv ∈ (lines.foldl (readLine stgs env keyPfx rfuel) st).envOut := by
  intro lines
  induction lines with
  | nil => intro st kv h; exact h
  | cons l rest ih =>
    intro st kv h
    exact ih _ (readLine_envOut_mono stgs env keyPfx rfuel st l h)

theorem foldl_unknowns_mono (stgs : List Setting) (env : Str → Option Str)
    (keyPfx : Str) (rfuel : Nat) :
    ∀ (lines : List Str) (st : ReadState) {kv : Str × Str}, kv ∈ st.unknowns →
      kv ∈ (lines.foldl (readLine stgs env keyPfx rfuel) st).unknowns := by
  intro lines
  induction lines with
  | nil => intro st kv h; exact h
  | cons l rest ih =>
    intro st kv h
    exact ih _ (readLine_unknowns_mono stgs env keyPfx rfuel st l h)

/-- An unmatched, prefix-carrying key is exported to the environment and
recorded among the unknown configs by its own line's processing step. -/
theorem readLine_unknownPfx_step (stgs : List Setting) (env : Str → Option Str)
    (keyPfx : Str) (rfuel : Nat) (st : ReadState) (l : Str)
    (h : lineUnknownPfx stgs keyPfx l = true) :
    ∃ key toks v, delimit l = key :: toks ∧
      (key, v) ∈ (readLine stgs env keyPfx rfuel st l).envOut ∧
      (key, v) ∈ (readLine stgs env keyPfx rfuel st l).unknowns := by
  unfold lineUnknownPfx lineCounted at h
  rw [Bool.and_eq_true] at h
  obtain ⟨hcount, hrest⟩ := h
  rw [Bool.and_eq_true] at hcount
  obtain ⟨h1, h2⟩ := hcount
  rw [Bool.not_eq_true'] at h1 h2
  cases hd : delimit l with
  | nil => rw [hd] at hrest; simp [keyUnknownPfx] at hrest
  | cons key toks =>
    rw [hd] at hrest
    simp only [keyUnknownPfx] at hrest
    rw [Bool.and_eq_true, Bool.and_eq_true, Bool.and_eq_true, Bool.and_eq_true] at hrest
    obtain ⟨⟨⟨⟨hb1, hb2⟩, hb3⟩, hb4⟩, hk5⟩ := hrest
    have hk1 : key.isEmpty = false := by simpa using hb1
    have hk2 : ¬ key.head? = some '#' := by simpa using hb2
    have hk3 : ¬ key.head? = some '$' := by simpa using hb3
    have hk4 : (stgs.any fun s => s.matches key) = false := by simpa using hb4
    have hm : ¬ 0 < (stgs.filter (fun s => s.matches key)).length := by
      intro hc
      have := List.any_eq_true.mpr
        ((exists_mem_iff_filter_pos (fun s => s.matches key) stgs).mpr hc)
      rw [this] at hk4
      exact absurd hk4 (by simp)
    have hre : readLine stgs env keyPfx rfuel st l =
        { st with expected := st.expected + 1,
                  envOut := st.envOut ++
                    [(key, buildVal (resolveVarF env stgs st.vars rfuel) toks)],
                  unknowns := addUnknown
                    (key, buildVal (resolveVarF env stgs st.vars rfuel) toks)
                    st.unknowns } := by
      simp [readLine, h1, h2, hd, hk1, hk2, hk3, hm, hk5]
    refine ⟨key, toks, buildVal (resolveVarF env stgs st.vars rfuel) toks, rfl, ?_, ?_⟩ <;>
      rw [hre]
    · exact List.mem_append_right _ (by simp)
    · exact mem_addUnknown _ _

theorem readLine_applied_inv (stgs : List Setting) (env : Str → Option Str)
    (keyPfx : Str) (rfuel : Nat) (st : ReadState) (l : Str)
    (h : ∀ kv ∈ st.applied, stgs.any (fun s => s.matches kv.1) = true) :
    ∀ kv ∈ (readLine stgs env keyPfx rfuel st l).applied,
      stgs.any (fun s => s.matches kv.1) = true := by
  rcases readLine_cases stgs env keyPfx rfuel st l with
    he | he | ⟨kv', he⟩ | ⟨kv', n, hany, he⟩ | ⟨kv', he⟩ <;> rw [he]
  any_goals exact h
  intro kv hkv
  rcases List.mem_append.mp hkv with hkv | hkv
  · exact h kv hkv
  · have := (List.mem_replicate.mp hkv).2
    subst this
    exact hany

theorem foldl_applied_inv (stgs : List Setting) (env : Str → Option Str)
    (keyPfx : Str) (rfuel : Nat) :
    ∀ (lines : List Str) (st : ReadState),
      (∀ kv ∈ st.applied, stgs.any (fun s => s.matches kv.1) = true) →
      ∀ kv ∈ (lines.foldl (readLine stgs env keyPfx rfuel) st).applied,
        stgs.any (fun s => s.matches kv.1) = true := by
  intro lines
  induction lines with
  | nil => intro st h; exact h
  | cons l rest ih =>
    intro st h
    exact ih _ (readLine_applied_inv stgs env keyPfx rfuel st l h)

theorem lineUnknownPfx_not_ok {stgs : List Setting} {keyPfx : Str} {l : Str}
    (h : lineUnknownPfx stgs keyPfx l = true) :
    lineCounted l = true ∧ lineOk stgs l = false := by
  unfold lineUnknownPfx at h
  rw [Bool.and_eq_true] at h
  obtain ⟨hcount, hrest⟩ := h
  refine ⟨hcount, ?_⟩
  unfold lineOk
  cases hd : delimit l with
  | nil => simp [keyOk]
  | cons key toks =>
    rw [hd] at hrest
    simp only [keyUnknownPfx] at hrest
    rw [Bool.and_eq_true, Bool.and_eq_true, Bool.and_eq_true, Bool.and_eq_true] at hrest
    obtain ⟨⟨⟨⟨hb1, hb2⟩, hb3⟩, hb4⟩, hk5⟩ := hrest
    have hk4 : (stgs.any fun s => s.matches key) = false := by simpa using hb4
    simp [keyOk, hb1, hb2, hb3, hk4]

end settings



/-- C10 (amended): for text-format input, `settings::read` returns true
iff every non-blank, non-comment line is a well-formed setting line whose
key matches a known setting — variable (`$NAME`) lines count toward
`expected` but never toward `valid`, so their presence alone forces a
false return; unrecognized keys carrying the settings prefix are exported
to the environment and recorded as unknown configs rather than applied,
and still cause a false return; only matched keys are ever applied. -/
theorem claim_C10 (stgs : List settings.Setting) (env : Str → Option Str)
    (keyPfx : Str) (rfuel : Nat) (lines : List Str)
    (hsingle : ∀ key : Str, (stgs.filter (fun s => s.matches key)).length ≤ 1) :
    ((settings.readText stgs env keyPfx rfuel lines).2 = true ↔
      ∀ l ∈ lines, settings.lineCounted l = true → settings.lineOk stgs l = true) ∧
    (∀ l ∈ lines, settings.lineUnknownPfx stgs keyPfx l = true →
      (settings.readText stgs env keyPfx rfuel lines).2 = false ∧
      ∃ key toks v, settings.delimit l = key :: toks ∧
        (key, v) ∈ (settings.readText stgs env keyPfx rfuel lines).1.envOut ∧
        (key, v) ∈ (settings.readText stgs env keyPfx rfuel lines).1.unknowns) ∧
    (∀ kv ∈ (settings.readText stgs env keyPfx rfuel lines).1.applied,
      stgs.any (fun s => s.matches kv.1) = true) := by
  have hfin1 : (settings.readText stgs env keyPfx rfuel lines).1 =
      lines.foldl (settings.readLine stgs env keyPfx rfuel) settings.initReadState := rfl
  have hfin2 : (settings.readText stgs env keyPfx rfuel lines).2 =
      ((lines.foldl (settings.readLine stgs env keyPfx rfuel)
          settings.initReadState).expected ==
       (lines.foldl (settings.readLine stgs env keyPfx rfuel)
          settings.initReadState).valid) := rfl
  have h0e : settings.initReadState.expected = 0 := rfl
  have h0v : settings.initReadState.valid = 0 := rfl
  have hiff : (settings.readText stgs env keyPfx rfuel lines).2 = true ↔
      ∀ l ∈ lines, settings.lineCounted l = true → settings.lineOk stgs l = true := by
    rw [hfin2, beq_iff_eq, settings.foldl_readLine_expected, settings.foldl_readLine_valid,
        h0e, h0v, Nat.zero_add, Nat.zero_add,
        settings.sum_eq_iff_pointwise (settings.vOf_le_eOf hsingle) lines]
    constructor
    · intro h l hl
      exact (settings.eOf_eq_vOf_iff hsingle l).mp (h l hl)
    · intro h l hl
      exact (settings.eOf_eq_vOf_iff hsingle l).mpr (h l hl)
  refine ⟨hiff, ?_, ?_⟩
  · intro l hl hupfx
    have hnotok := settings.lineUnknownPfx_not_ok hupfx
    constructor
    · cases hres : (settings.readText stgs env keyPfx rfuel lines).2 with
      | false => rfl
      | true =>
          have hok := (hiff.mp hres) l hl hnotok.1
          rw [hnotok.2] at hok
          exact absurd hok (by simp)
    · obtain ⟨l1, l2, rfl⟩ := List.append_of_mem hl
      obtain ⟨key, toks, v, hdl, henv, hunk⟩ :=
        settings.readLine_unknownPfx_step stgs env keyPfx rfuel
          (l1.foldl (settings.readLine stgs env keyPfx rfuel) settings.initReadState) l hupfx
      refine ⟨key, toks, v, hdl, ?_, ?_⟩
      · rw [hfin1, List.foldl_append, List.foldl_cons]
        exact settings.foldl_envOut_mono stgs env keyPfx rfuel l2 _ henv
      · rw [hfin1, List.foldl_append, List.foldl_cons]
        exact settings.foldl_unknowns_mono stgs env keyPfx rfuel l2 _ hunk
  · intro kv hkv
    rw [hfin1] at hkv
    refine settings.foldl_applied_inv stgs env keyPfx rfuel lines settings.initReadState
      ?_ kv hkv
    intro kv' hkv'
    exact absurd hkv' (by simp [settings.initReadState])

/-- C10 counterexample to the original claim: with one known setting
`TIMEMORY_ENABLED` and the single input line `$V = ON`, every non-blank,
non-comment, non-variable line trivially has a matched key (there is
none), yet `settings::read` returns false — the variable line increments
`expected` without ever incrementing `valid`. -/
theorem claim_C10_counterexample :
    (settings.readText
      [⟨["TIMEMORY_ENABLED".toList], "true".toList⟩]
      (fun _ => none) "TIMEMORY_".toList 4 ["$V = ON".toList]).2 = false ∧
    (["$V = ON".toList].all (fun l =>
      !(settings.lineCounted l) || settings.lineIsVar l ||
      settings.lineMatched [⟨["TIMEMORY_ENABLED".toList], "true".toList⟩] l)) = true := by
  decide

theorem claim_C10_witness :
    (settings.readText
      [⟨["TIMEMORY_ENABLED".toList], "true".toList⟩]
      (fun _ => none) "TIMEMORY_".toList 4
      ["TIMEMORY_ENABLED = OFF".toList]).2 = true :=
  (claim_C10 [⟨["TIMEMORY_ENABLED".toList], "true".toList⟩]
      (fun _ => none) "TIMEMORY_".toList 4 ["TIMEMORY_ENABLED = OFF".toList]
      (fun _ => List.length_filter_le _ _)).1.mpr (by decide)

end Timemory

namespace Timemory

/-! ### `settings::format` (settings.cpp lines 220-312) -/

namespace md5

/-- Modelled from the spec: `%m` is documented as an md5 digest and
`md5::compute_md5` is defined outside the four sources; this is the
standard RFC 1321 MD5 with lowercase-hex output, applied to the bytes of
an ASCII string. -/
def mask32 : Nat := 4294967295

def not32 (x : Nat) : Nat := Nat.xor x mask32

def rotl32 (x n : Nat) : Nat := (x % 2 ^ (32 - n)) * 2 ^ n + x / 2 ^ (32 - n)

/-- The per-round shift amounts. -/
def sTab : List Nat :=
  [7, 12, 17, 22, 7, 12, 17, 22, 7, 12, 17, 22, 7, 12, 17, 22,
   5, 9, 14, 20, 5, 9, 14, 20, 5, 9, 14, 20, 5, 9, 14, 20,
   4, 11, 16, 23, 4, 11, 16, 23, 4, 11, 16, 23, 4, 11, 16, 23,
   6, 10, 15, 21, 6, 10, 15, 21, 6, 10, 15, 21, 6, 10, 15, 21]

/-- The per-round additive constants `floor(2^32 * abs(sin(i+1)))`. -/
def kTab : List Nat :=
  [0xd76aa478, 0xe8c7b756, 0x242070db, 0xc1bdceee,
   0xf57c0faf, 0x4787c62a, 0xa8304613, 0xfd469501,
   0x698098d8, 0x8b44f7af, 0xffff5bb1, 0x895cd7be,
   0x6b901122, 0xfd987193, 0xa679438e, 0x49b40821,
   0xf61e2562, 0xc040b340, 0x265e5a51, 0xe9b6c7aa,
   0xd62f105d, 0x02441453, 0xd8a1e681, 0xe7d3fbc8,
   0x21e1cde6, 0xc33707d6, 0xf4d50d87, 0x455a14ed,
   0xa9e3e905, 0xfcefa3f8, 0x676f02d9, 0x8d2a4c8a,
   0xfffa3942, 0x8771f681, 0x6d9d6122, 0xfde5380c,
   0xa4beea44, 0x4bdecfa9, 0xf6bb4b60, 0xbebfbc70,
   0x289b7ec6, 0xeaa127fa, 0xd4ef3085, 0x04881d05,
   0xd9d4d039, 0xe6db99e5, 0x1fa27cf8, 0xc4ac5665,
   0xf4292244, 0x432aff97, 0xab9423a7, 0xfc93a039,
   0x655b59c3, 0x8f0ccc92, 0xffeff47d, 0x85845dd1,
   0x6fa87e4f, 0xfe2ce6e0, 0xa3014314, 0x4e0811a1,
   0xf7537e82, 0xbd3af235, 0x2ad7d2bb, 0xeb86d391]

/-- The 8-byte little-endian bit-length trailer. -/
def lenBytes (bits : Nat) : List Nat :=
  (List.range 8).map (fun i => bits / 2 ^ (8 * i) % 256)

/-- RFC 1321 padding: `0x80`, zeros to 56 mod 64, 64-bit length. -/
def padMsg (bs : List Nat) : List Nat :=
  let n := bs.length
  bs ++ [0x80] ++ List.replicate ((119 - n % 64) % 64) 0 ++ lenBytes (8 * n)

/-- Little-endian 32-bit word `g` of a 64-byte chunk. -/
def word (chunk : List Nat) (g : Nat) : Nat :=
  chunk.getD (4 * g) 0 + 256 * chunk.getD (4 * g + 1) 0 +
    65536 * chunk.getD (4 * g + 2) 0 + 16777216 * chunk.getD (4 * g + 3) 0

/-- The round function and message-word schedule of round `i`. -/
def fG (i b c d : Nat) : Nat × Nat :=
  if i < 16 then (Nat.lor (Nat.land b c) (Nat.land (not32 b) d), i)
  else if i < 32 then (Nat.lor (Nat.land d b) (Nat.land (not32 d) c), (5 * i + 1) % 16)
  else if i < 48 then (Nat.xor (Nat.xor b c) d, (3 * i + 5) % 16)
  else (Nat.xor c (Nat.lor b (not32 d)), (7 * i) % 16)

/-- One of the 64 rounds on the `(A, B, C, D)` state. -/
def roundStep (chunk : List Nat) (st : Nat × Nat × Nat × Nat) (i : Nat) :
    Nat × Nat × Nat × Nat :=
  let (a, b, c, d) := st
  let (f, g) := fG i b c d
  let h := (f + a + kTab.getD i 0 + word chunk g) % 2 ^ 32
  (d, (b + rotl32 h (sTab.getD i 0)) % 2 ^ 32, b, c)

/-- Process one 64-byte chunk and fold it into the running state. -/
def processChunk (st : Nat × Nat × Nat × Nat) (chunk : List Nat) :
    Nat × Nat × Nat × Nat :=
  let (a0, b0, c0, d0) := st
  let (a, b, c, d) := (List.range 64).foldl (roundStep chunk) (a0, b0, c0, d0)
  ((a0 + a) % 2 ^ 32, (b0 + b) % 2 ^ 32, (c0 + c) % 2 ^ 32, (d0 + d) % 2 ^ 32)

/-- Split into 64-byte chunks; `fuel` at least the byte count suffices. -/
def chunksF : Nat → List Nat → List (List Nat)
  | 0, _ => []
  | _, [] => []
  | fuel + 1, bs => bs.take 64 :: chunksF fuel (bs.drop 64)

/-- Lowercase hex digit. -/
def hexDigit (n : Nat) : Char :=
  if n < 10 then Char.ofNat (48 + n) else Char.ofNat (87 + n)

def byteHex (b : Nat) : List Char := [hexDigit (b / 16 % 16), hexDigit (b % 16)]

/-- Little-endian byte split of a 32-bit word. -/
def wordBytes (w : Nat) : List Nat :=
  [w % 256, w / 256 % 256, w / 65536 % 256, w / 16777216 % 256]

/-- `md5::compute_md5`: the lowercase-hex MD5 digest of a string. -/
def md5Hex (s : List Char) : List Char :=
  let bs := padMsg (s.map Char.toNat)
  let st := (chunksF bs.length bs).foldl processChunk
    (0x67452301, 0xefcdab89, 0x98badcfe, 0x10325476)
  ((wordBytes st.1 ++ wordBytes st.2.1 ++ wordBytes st.2.2.1 ++
    wordBytes st.2.2.2).map byteHex).foldl (fun acc h => acc ++ h) []

end md5

end Timemory


namespace Timemory

namespace settings

/-- The ambient process state read by `settings::format` (lines 224,
266-270): the stored command line, `process::get_id()`, the
`SLURM_JOB_ID` and `SLURM_PROCID` environment values (the latter
defaulting to the dmp rank), and `dmp::size()`, all already rendered as
strings.  Modelled from the spec where the producers are outside the
four sources; the munging of these values inside `format` is embedded
from the source. -/
structure FormatCtx where
  cmdline : List Str
  pid : Str
  job : Str
  rank : Str
  size : Str

/-- Lines 238-239: drop `_cmdline[1]` when it is `"--"`. -/
def cmdlineDropDashes : List Str → List Str
  | c0 :: c1 :: rest => if c1 = ['-', '-'] then c0 :: rest else c0 :: c1 :: rest
  | cl => cl

/-- Lines 241-248: in each argument replace `/` by `_`, then strip all
leading `.`, then all leading `_`. -/
def mungeArg (s : Str) : Str :=
  List.dropWhile (fun c => c == '_')
    (List.dropWhile (fun c => c == '.') (replaceAll ['/'] ['_'] s))

def mungedCmdline (cl : List Str) : List Str := (cmdlineDropDashes cl).map mungeArg

/-- `_args_string` (lines 254-259): each argument past the first,
prefixed with `_`, concatenated. -/
def argsStr (cl : List Str) : Str :=
  ((mungedCmdline cl).drop 1).foldl (fun acc a => acc ++ '_' :: a) []

/-- `_arg0_string`. -/
def arg0Str (cl : List Str) : Str := (mungedCmdline cl).headD []

/-- `_argv_string`. -/
def argvStr (cl : List Str) : Str := arg0Str cl ++ argsStr cl

/-- `_argt_string`. -/
def argtStr (cl : List Str) (tag : Str) : Str := tag ++ argsStr cl

/-- Decimal digits of a number, with structural fuel. -/
def natDigitsF : Nat → Nat → Str
  | 0, _ => []
  | fuel + 1, n =>
      if n < 10 then [Char.ofNat (48 + n)]
      else natDigitsF fuel (n / 10) ++ [Char.ofNat (48 + n % 10)]

def natStr (n : Nat) : Str := natDigitsF (n + 1) n

/-- `_argn_options` (lines 260-262): for each argument index `i ≥ 1`,
the pairs `("%arg<i>%", v)` and `("%arg<i>_hash%", md5(v))` with
`v = "_" + argument`. -/
def argnPairs : Nat → List Str → List (Str × Str)
  | _, [] => []
  | i, a :: rest =>
      ('%' :: 'a' :: 'r' :: 'g' :: natStr i ++ ['%'], '_' :: a) ::
      ('%' :: 'a' :: 'r' :: 'g' :: natStr i ++ ['_', 'h', 'a', 's', 'h', '%'],
        md5.md5Hex ('_' :: a)) ::
      argnPairs (i + 1) rest

/-- Sequential application of the `_replace` lambda over a pair list. -/
def replacePairs (s : Str) (ps : List (Str × Str)) : Str :=
  ps.foldl (fun acc pr => replaceAll pr.1 pr.2 acc) s

/-- The `{ "--", "-" }, { "__", "_" }, { "//", "/" }` pre-replacements
(lines 272-276). -/
def mungePairs : List (Str × Str) :=
  [(['-', '-'], ['-']), (['_', '_'], ['_']), (['/', '/'], ['/'])]

/-- The first fourteen entries of the ordered replacement list of lines
281-299: the long bracketed forms. -/
def longPairs (ctx : FormatCtx) (tag : Str) : List (Str × Str) :=
  [("%arg0%".toList, arg0Str ctx.cmdline),
   ("%arg0_hash%".toList, md5.md5Hex (arg0Str ctx.cmdline)),
   ("%argv%".toList, argvStr ctx.cmdline),
   ("%argv_hash%".toList, md5.md5Hex (argvStr ctx.cmdline)),
   ("%argt%".toList, argtStr ctx.cmdline tag),
   ("%argt_hash%".toList, md5.md5Hex (argtStr ctx.cmdline tag)),
   ("%args%".toList, argsStr ctx.cmdline),
   ("%args_hash%".toList, md5.md5Hex (argsStr ctx.cmdline)),
   ("%tag%".toList, tag),
   ("%tag_hash%".toList, md5.md5Hex tag),
   ("%pid%".toList, ctx.pid),
   ("%job%".toList, ctx.job),
   ("%rank%".toList, ctx.rank),
   ("%size%".toList, ctx.size)]

/-- The last five entries of the replacement list (lines 295-299): the
short forms, in their source order; `%m` gets the md5 of
`_argt_string`. -/
def shortPairs (ctx : FormatCtx) (tag : Str) : List (Str × Str) :=
  [(['%', 'm'], md5.md5Hex (argtStr ctx.cmdline tag)),
   (['%', 'p'], ctx.pid),
   (['%', 'j'], ctx.job),
   (['%', 'r'], ctx.rank),
   (['%', 's'], ctx.size)]

/-- The ordered replacement list of lines 281-299. -/
def formatPairs (ctx : FormatCtx) (tag : Str) : List (Str × Str) :=
  longPairs ctx tag ++ shortPairs ctx tag

/-- Is `c` an ASCII decimal digit? -/
def isDigitCh (c : Char) : Bool := 48 ≤ c.toNat && c.toNat ≤ 57

/-- Group 3 of the regex: the separator run of `-`, `/`, `_`. -/
def stripSeps (s : Str) : Str :=
  s.dropWhile (fun c => c == '-' || c == '/' || c == '_')

/-- Regex tail matcher: given the text after a `%`, accept
`arg[0-9]+%` or `arg[0-9]+_hash%` and return the text after the
trailing separator run. -/
def argAfterPct : Str → Option Str
  | 'a' :: 'r' :: 'g' :: u =>
      let ds := u.takeWhile isDigitCh
      let v := u.dropWhile isDigitCh
      if ds.isEmpty then none
      else if v.head? = some '%' then some (stripSeps (v.drop 1))
      else if List.isPrefixOf ['_', 'h', 'a', 's', 'h', '%'] v then
        some (stripSeps (v.drop 6))
      else none
  | _ => none

/-- The single `regex_replace` step of line 309, with a pattern that
captures a head, a `%arg<digits>%` or `%arg<digits>_hash%` occurrence, a
run of separators `-`, `/`, `_`, and a tail, and keeps head and tail: the
greedy leading `(.*)` selects the last match, so the result splits the
string at the last `%arg...` occurrence, whose text and trailing
separators are dropped. -/
def lastArgSplit : Str → Option (Str × Str)
  | [] => none
  | c :: t =>
      match lastArgSplit t with
      | some ab => some (c :: ab.1, ab.2)
      | none => if c = '%' then (argAfterPct t).map (fun r => (([] : Str), r)) else none

/-- The `while(regex_search)` loop (lines 307-309), with fuel. -/
def argScrubF : Nat → Str → Str
  | 0, s => s
  | fuel + 1, s =>
      match lastArgSplit s with
      | none => s
      | some ab => argScrubF fuel (ab.1 ++ ab.2)

/-- `settings::format(std::string _fpath, const std::string& _tag)`
(lines 220-312): munge `--`/`__`/`//`, return early when no `%`
remains, apply the ordered replacement list, the per-argument options,
and the `%arg` scrubbing regex loop. -/
def format (ctx : FormatCtx) (fpath : Str) (tag : Str) : Str :=
  let f1 := replacePairs fpath mungePairs
  if f1.contains '%' then
    let f2 := replacePairs f1 (formatPairs ctx tag)
    let f3 := replacePairs f2 (argnPairs 1 ((mungedCmdline ctx.cmdline).drop 1))
    argScrubF (f3.length + 1) f3
  else f1

end settings

end Timemory


namespace Timemory

namespace settings

/-- The four short placeholders of the claim. -/
inductive PTok
  | m
  | p
  | j
  | r
deriving DecidableEq

def tokChar : PTok → Char
  | .m => 'm'
  | .p => 'p'
  | .j => 'j'
  | .r => 'r'

/-- The placeholder text `%m`, `%p`, `%j`, `%r`. -/
def tokStr (τ : PTok) : Str := ['%', tokChar τ]

/-- A filename template: a head literal followed by alternating
placeholders and literals. -/
structure Tpl where
  head : Str
  parts : List (PTok × Str)

def renderParts (g : PTok → Str) : List (PTok × Str) → Str
  | [] => []
  | (τ, lit) :: rest => g τ ++ lit ++ renderParts g rest

/-- The template text with each placeholder shown through `g`. -/
def render (g : PTok → Str) (t : Tpl) : Str := t.head ++ renderParts g t.parts

/-- The value each placeholder is replaced by (lines 295-298): the md5
of `_argt_string` for `%m`, the process id for `%p`, the job id for
`%j`, the rank for `%r`. -/
def tokVal (ctx : FormatCtx) (tag : Str) : PTok → Str
  | .m => md5.md5Hex (argtStr ctx.cmdline tag)
  | .p => ctx.pid
  | .j => ctx.job
  | .r => ctx.rank

/-- Every `%` of the string is followed, inside the string, by a
character other than `c` (so the two-character pattern cannot start
inside it, nor at its right edge). -/
def pctClean (c : Char) : Str → Bool
  | [] => true
  | [x] => !(x == '%')
  | x :: d :: t => (!(x == '%') || !(d == c)) && pctClean c (d :: t)

theorem occursIn_head {x : Char} {q : Str} :
    ∀ {s : Str}, occursIn (x :: q) s = true → x ∈ s := by
  intro s
  induction s with
  | nil => intro h; simp [occursIn, List.isPrefixOf] at h
  | cons b t ih =>
    intro h
    have h' := h
    rw [show occursIn (x :: q) (b :: t) =
        (List.isPrefixOf (x :: q) (b :: t) || occursIn (x :: q) t) from rfl,
      Bool.or_eq_true] at h'
    rcases h' with h' | h'
    · simp only [List.isPrefixOf, Bool.and_eq_true, beq_iff_eq] at h'
      exact h'.1 ▸ List.mem_cons_self b t
    · exact List.mem_cons_of_mem b (ih h')

theorem occursIn_false_of_not_mem {x : Char} {q s : Str} (h : x ∉ s) :
    occursIn (x :: q) s = false := by
  cases hocc : occursIn (x :: q) s with
  | false => rfl
  | true => exact absurd (occursIn_head hocc) h

theorem contains_iff_mem {x : Char} : ∀ {s : Str}, s.contains x = true ↔ x ∈ s := by
  intro s
  induction s with
  | nil => simp [List.contains]
  | cons b t ih =>
    show (x == b || t.contains x) = true ↔ x ∈ b :: t
    rw [Bool.or_eq_true, beq_iff_eq, ih, List.mem_cons]

/-- The two-character pattern is not a prefix when the first characters
differ. -/
theorem isPrefixOf_pct_off1 {c x : Char} {s : Str} (hx : (x == '%') = false) :
    List.isPrefixOf ['%', c] (x :: s) = false := by
  have hx' : ('%' == x) = false :=
    beq_eq_false_iff_ne.mpr (Ne.symm (beq_eq_false_iff_ne.mp hx))
  show (('%' == x) && List.isPrefixOf [c] s) = false
  rw [hx', Bool.false_and]

/-- The two-character pattern is not a prefix when either character
disagrees. -/
theorem isPrefixOf_pct_off2 {c x d : Char} {s : Str}
    (h : (!(x == '%') || !(d == c)) = true) :
    List.isPrefixOf ['%', c] (x :: d :: s) = false := by
  have h' : (x == '%') = false ∨ (d == c) = false := by
    rcases (by simpa using h : ¬ x = '%' ∨ ¬ d = c) with h' | h'
    · exact Or.inl (beq_eq_false_iff_ne.mpr h')
    · exact Or.inr (beq_eq_false_iff_ne.mpr h')
  show (('%' == x) && ((c == d) && List.isPrefixOf ([] : Str) s)) = false
  rcases h' with h' | h'
  · rw [beq_eq_false_iff_ne.mpr (Ne.symm (beq_eq_false_iff_ne.mp h')), Bool.false_and]
  · rw [beq_eq_false_iff_ne.mpr (Ne.symm (beq_eq_false_iff_ne.mp h'))]
    simp

theorem pctClean_of_not_mem {c : Char} : ∀ {a : Str}, '%' ∉ a → pctClean c a = true := by
  intro a
  induction a with
  | nil => intro _; rfl
  | cons x t ih =>
    intro h
    have hx : ¬ x = '%' := fun he => h (he ▸ List.mem_cons_self x t)
    have ht : '%' ∉ t := fun hm => h (List.mem_cons_of_mem x hm)
    cases t with
    | nil => simp [pctClean, hx]
    | cons d t' =>
      have := ih ht
      simp [pctClean, hx, this]

theorem pctClean_append {c : Char} :
    ∀ {a : Str}, pctClean c a = true → ∀ {b : Str}, pctClean c b = true →
      pctClean c (a ++ b) = true := by
  intro a
  induction a with
  | nil => intro _ b hb; simpa using hb
  | cons x t ih =>
    intro ha b hb
    cases t with
    | nil =>
      have hx : (x == '%') = false := by simpa [pctClean] using ha
      cases b with
      | nil => simpa [pctClean] using ha
      | cons d t' =>
        show pctClean c (x :: d :: t') = true
        simp [pctClean, hx, hb]
    | cons d t' =>
      have ha' : (!(x == '%') || !(d == c)) = true ∧ pctClean c (d :: t') = true := by
        simpa [pctClean, Bool.and_eq_true] using ha
      have hrec := ih ha'.2 hb
      show pctClean c (x :: d :: (t' ++ b)) = true
      simp only [pctClean, Bool.and_eq_true]
      refine ⟨ha'.1, ?_⟩
      simpa using hrec

theorem pctClean_no_occ {c : Char} :
    ∀ {a : Str}, pctClean c a = true → occursIn ['%', c] a = false := by
  intro a
  induction a with
  | nil => intro _; rfl
  | cons x t ih =>
    intro ha
    cases t with
    | nil => simp [occursIn, List.isPrefixOf]
    | cons d t' =>
      have ha' : (!(x == '%') || !(d == c)) = true ∧ pctClean c (d :: t') = true := by
        simpa [pctClean, Bool.and_eq_true] using ha
      show (List.isPrefixOf ['%', c] (x :: d :: t') || occursIn ['%', c] (d :: t')) = false
      rw [isPrefixOf_pct_off2 ha'.1, ih ha'.2]
      rfl

theorem firstSplit_pctClean_append {c : Char} :
    ∀ {a : Str}, pctClean c a = true → ∀ (s : Str),
      firstSplit ['%', c] (a ++ s) =
        (firstSplit ['%', c] s).map (fun ab => (a ++ ab.1, ab.2)) := by
  intro a
  induction a with
  | nil =>
    intro _ s
    cases hfs : firstSplit ['%', c] s with
    | none => simp [hfs]
    | some ab => simp [hfs]
  | cons x t ih =>
    intro ha s
    cases t with
    | nil =>
      have hx : (x == '%') = false := by simpa [pctClean] using ha
      show firstSplit ['%', c] (x :: s) = _
      rw [show firstSplit ['%', c] (x :: s) =
          if List.isPrefixOf ['%', c] (x :: s) then some ([], (x :: s).drop 2)
          else (firstSplit ['%', c] s).map (fun ab => (x :: ab.1, ab.2)) from rfl,
        isPrefixOf_pct_off1 hx]
      simp only [Bool.false_eq_true, if_false]
      cases hfs : firstSplit ['%', c] s with
      | none => simp
      | some ab => simp
    | cons d t' =>
      have ha' : (!(x == '%') || !(d == c)) = true ∧ pctClean c (d :: t') = true := by
        simpa [pctClean, Bool.and_eq_true] using ha
      have ihx := ih ha'.2 s
      show firstSplit ['%', c] (x :: (d :: t' ++ s)) = _
      rw [show firstSplit ['%', c] (x :: (d :: t' ++ s)) =
          if List.isPrefixOf ['%', c] (x :: (d :: t' ++ s)) then
            some ([], (x :: (d :: t' ++ s)).drop 2)
          else (firstSplit ['%', c] (d :: t' ++ s)).map
            (fun ab => (x :: ab.1, ab.2)) from rfl]
      rw [show (d :: t' ++ s) = (d :: (t' ++ s)) from rfl, isPrefixOf_pct_off2 ha'.1]
      simp only [Bool.false_eq_true, if_false]
      rw [show (d :: (t' ++ s)) = (d :: t' ++ s) from rfl, ihx]
      cases hfs : firstSplit ['%', c] s with
      | none => simp
      | some ab => simp

end settings

end Timemory

namespace Timemory

namespace settings

theorem tokChar_ne_pct : ∀ τ : PTok, tokChar τ ≠ '%' := by
  intro τ; cases τ <;> decide

theorem pctClean_pct_tok {c d : Char} (hdc : d ≠ c) (hdp : d ≠ '%') :
    pctClean c ['%', d] = true := by
  show ((!('%' == '%') || !(d == c)) && pctClean c [d]) = true
  rw [show pctClean c [d] = !(d == '%') from rfl]
  simp [beq_eq_false_iff_ne.mpr hdc, beq_eq_false_iff_ne.mpr hdp]

theorem firstSplit_self_pct {c : Char} (x : Str) :
    firstSplit ['%', c] (['%', c] ++ x) = some ([], x) := by
  show firstSplit ['%', c] ('%' :: c :: x) = some ([], x)
  rw [show firstSplit ['%', c] ('%' :: c :: x) =
      if List.isPrefixOf ['%', c] ('%' :: c :: x) then
        some ([], ('%' :: c :: x).drop 2)
      else (firstSplit ['%', c] (c :: x)).map (fun ab => ('%' :: ab.1, ab.2)) from rfl]
  have : List.isPrefixOf ['%', c] ('%' :: c :: x) = true := by
    show (('%' == '%') && ((c == c) && List.isPrefixOf ([] : Str) x)) = true
    simp [List.isPrefixOf]
  rw [this]
  simp

theorem filter_tok_le_render {c : Char} {g : PTok → Str} :
    ∀ parts : List (PTok × Str),
      (parts.filter (fun pr => decide (g pr.1 = ['%', c]))).length ≤
        (renderParts g parts).length := by
  intro parts
  induction parts with
  | nil => simp [renderParts]
  | cons pr rest ih =>
    obtain ⟨τ, lit⟩ := pr
    show (((τ, lit) :: rest).filter (fun pr => decide (g pr.1 = ['%', c]))).length ≤
      ((g τ ++ lit) ++ renderParts g rest).length
    by_cases hτ : g τ = ['%', c]
    · rw [List.filter_cons, if_pos (by simp [hτ]), hτ]
      simp only [List.length_cons, List.length_append, List.length_nil]
      omega
    · rw [List.filter_cons, if_neg (by simp [hτ])]
      simp only [List.length_append]
      omega

theorem replaceAllF_subst {c : Char} {v : Str} (hv : '%' ∉ v)
    {g : PTok → Str} (hg : ∀ τ, g τ = ['%', tokChar τ] ∨ '%' ∉ g τ) :
    ∀ (parts : List (PTok × Str)), (∀ pr ∈ parts, '%' ∉ pr.2) →
      ∀ (pre : Str), pctClean c pre = true →
      ∀ (fuel : Nat),
        (parts.filter (fun pr => decide (g pr.1 = ['%', c]))).length < fuel →
        replaceAllF ['%', c] v fuel (pre ++ renderParts g parts) =
          pre ++ renderParts (fun τ => if g τ = ['%', c] then v else g τ) parts := by
  intro parts
  induction parts with
  | nil =>
    intro _ pre hpre fuel _
    have hocc : occursIn ['%', c] (pre ++ renderParts g []) = false := by
      rw [show renderParts g [] = ([] : Str) from rfl, List.append_nil]
      exact pctClean_no_occ hpre
    cases fuel with
    | zero => rfl
    | succ f =>
      show replaceAllF ['%', c] v (f + 1) (pre ++ renderParts g []) = _
      unfold replaceAllF
      rw [firstSplit_none_iff.mpr hocc]
      rfl
  | cons pr rest ih =>
    obtain ⟨τ, lit⟩ := pr
    intro hlits pre hpre fuel hfuel
    have hlit : '%' ∉ lit := hlits (τ, lit) (List.mem_cons_self _ _)
    have hrest : ∀ pr ∈ rest, '%' ∉ pr.2 := fun pr h => hlits pr (List.mem_cons_of_mem _ h)
    by_cases hτ : g τ = ['%', c]
    · have hcnt : (((τ, lit) :: rest).filter
          (fun pr => decide (g pr.1 = ['%', c]))).length =
          (rest.filter (fun pr => decide (g pr.1 = ['%', c]))).length + 1 := by
        rw [List.filter_cons]
        simp [hτ]
      cases fuel with
      | zero => omega
      | succ f =>
        have hsplit : firstSplit ['%', c] (pre ++ renderParts g ((τ, lit) :: rest)) =
            some (pre, lit ++ renderParts g rest) := by
          rw [show renderParts g ((τ, lit) :: rest) =
              (g τ ++ lit) ++ renderParts g rest from rfl, hτ,
            firstSplit_pctClean_append hpre,
            List.append_assoc, firstSplit_self_pct]
          simp
        show replaceAllF ['%', c] v (f + 1) (pre ++ renderParts g ((τ, lit) :: rest)) = _
        unfold replaceAllF
        rw [hsplit]
        have hpre' : pctClean c ((pre ++ v) ++ lit) = true := by
          refine pctClean_append (pctClean_append hpre ?_) ?_
          · exact pctClean_of_not_mem hv
          · exact pctClean_of_not_mem hlit
        have hfl : (rest.filter (fun pr => decide (g pr.1 = ['%', c]))).length < f := by
          omega
        have hrec := ih hrest ((pre ++ v) ++ lit) hpre' f hfl
        show replaceAllF ['%', c] v f ((pre ++ v) ++ (lit ++ renderParts g rest)) = _
        rw [show ((pre ++ v) ++ (lit ++ renderParts g rest)) =
            (((pre ++ v) ++ lit) ++ renderParts g rest) by
          simp [List.append_assoc]]
        rw [hrec]
        rw [show renderParts (fun τ => if g τ = ['%', c] then v else g τ)
            ((τ, lit) :: rest) =
            ((if g τ = ['%', c] then v else g τ) ++ lit) ++
              renderParts (fun τ => if g τ = ['%', c] then v else g τ) rest from rfl,
          if_pos hτ]
        simp [List.append_assoc]
    · have hcnt : (((τ, lit) :: rest).filter
          (fun pr => decide (g pr.1 = ['%', c]))).length =
          (rest.filter (fun pr => decide (g pr.1 = ['%', c]))).length := by
        rw [List.filter_cons]
        simp [hτ]
      have hpc : pctClean c ((pre ++ g τ) ++ lit) = true := by
        rcases hg τ with htok | hfree
        · have hcτ : tokChar τ ≠ c := by
            intro he
            exact hτ (by rw [htok, he])
          refine pctClean_append (pctClean_append hpre ?_) (pctClean_of_not_mem hlit)
          rw [htok]
          exact pctClean_pct_tok hcτ (tokChar_ne_pct τ)
        · refine pctClean_append (pctClean_append hpre ?_) (pctClean_of_not_mem hlit)
          exact pctClean_of_not_mem hfree
      have hrec := ih hrest ((pre ++ g τ) ++ lit) hpc fuel (by omega)
      rw [show (pre ++ renderParts g ((τ, lit) :: rest)) =
          (((pre ++ g τ) ++ lit) ++ renderParts g rest) by
        rw [show renderParts g ((τ, lit) :: rest) =
            (g τ ++ lit) ++ renderParts g rest from rfl]
        simp [List.append_assoc]]
      rw [hrec]
      rw [show renderParts (fun τ => if g τ = ['%', c] then v else g τ)
          ((τ, lit) :: rest) =
          ((if g τ = ['%', c] then v else g τ) ++ lit) ++
            renderParts (fun τ => if g τ = ['%', c] then v else g τ) rest from rfl,
        if_neg hτ]
      simp [List.append_assoc]

/-- One short-placeholder replacement pass over a rendered template. -/
theorem replaceAll_subst {c : Char} {v : Str} (hv : '%' ∉ v)
    {g : PTok → Str} (hg : ∀ τ, g τ = ['%', tokChar τ] ∨ '%' ∉ g τ)
    {head : Str} (hhead : '%' ∉ head)
    {parts : List (PTok × Str)} (hlits : ∀ pr ∈ parts, '%' ∉ pr.2) :
    replaceAll ['%', c] v (head ++ renderParts g parts) =
      head ++ renderParts (fun τ => if g τ = ['%', c] then v else g τ) parts := by
  unfold replaceAll
  apply replaceAllF_subst hv hg parts hlits head (pctClean_of_not_mem hhead)
  have h1 := filter_tok_le_render (c := c) (g := g) parts
  rw [List.length_append]
  omega

theorem renderParts_congr {f g : PTok → Str} (h : ∀ τ, f τ = g τ) :
    ∀ parts : List (PTok × Str), renderParts f parts = renderParts g parts := by
  intro parts
  induction parts with
  | nil => rfl
  | cons pr rest ih =>
    obtain ⟨τ, lit⟩ := pr
    show (f τ ++ lit) ++ renderParts f rest = (g τ ++ lit) ++ renderParts g rest
    rw [h τ, ih]

theorem mem_renderParts {g : PTok → Str} {x : Char} :
    ∀ {parts : List (PTok × Str)}, x ∈ renderParts g parts →
      ∃ pr ∈ parts, x ∈ g pr.1 ∨ x ∈ pr.2 := by
  intro parts
  induction parts with
  | nil => intro h; simp [renderParts] at h
  | cons pr rest ih =>
    obtain ⟨τ, lit⟩ := pr
    intro h
    rw [show renderParts g ((τ, lit) :: rest) =
        (g τ ++ lit) ++ renderParts g rest from rfl] at h
    rcases List.mem_append.mp h with h' | h'
    · rcases List.mem_append.mp h' with h'' | h''
      · exact ⟨(τ, lit), List.mem_cons_self _ _, Or.inl h''⟩
      · exact ⟨(τ, lit), List.mem_cons_self _ _, Or.inr h''⟩
    · obtain ⟨pr, hpr, hx⟩ := ih h'
      exact ⟨pr, List.mem_cons_of_mem _ hpr, hx⟩

theorem renderParts_split {g : PTok → Str} :
    ∀ {parts : List (PTok × Str)} (pre : Str) {pr : PTok × Str}, pr ∈ parts →
      ∃ a b, pre ++ renderParts g parts = (a ++ g pr.1) ++ b := by
  intro parts
  induction parts with
  | nil => intro pre pr h; simp at h
  | cons q rest ih =>
    obtain ⟨τ, lit⟩ := q
    intro pre pr h
    rcases List.mem_cons.mp h with rfl | h'
    · refine ⟨pre, lit ++ renderParts g rest, ?_⟩
      rw [show renderParts g ((τ, lit) :: rest) =
          (g τ ++ lit) ++ renderParts g rest from rfl]
      simp [List.append_assoc]
    · obtain ⟨a, b, hab⟩ := ih ((pre ++ g τ) ++ lit) h'
      refine ⟨a, b, ?_⟩
      rw [← hab]
      rw [show renderParts g ((τ, lit) :: rest) =
          (g τ ++ lit) ++ renderParts g rest from rfl]
      simp [List.append_assoc]

theorem occursIn_append_mid {p b : Str} :
    ∀ a : Str, occursIn p ((a ++ p) ++ b) = true := by
  intro a
  induction a with
  | nil =>
    cases p with
    | nil => cases b <;> simp [occursIn, List.isPrefixOf]
    | cons c q =>
      show (List.isPrefixOf (c :: q) (([] ++ (c :: q)) ++ b) ||
        occursIn (c :: q) ((q ++ b))) = true
      have : List.isPrefixOf (c :: q) (([] ++ (c :: q)) ++ b) = true := by
        rw [List.nil_append]
        rw [List.isPrefixOf_iff_prefix]
        exact List.prefix_append _ _
      rw [this]
      rfl
  | cons x t ih =>
    show (List.isPrefixOf p (x :: ((t ++ p) ++ b)) ||
      occursIn p ((t ++ p) ++ b)) = true
    rw [ih]
    simp

theorem replacePairs_append (s : Str) (ps qs : List (Str × Str)) :
    replacePairs s (ps ++ qs) = replacePairs (replacePairs s ps) qs := by
  simp [replacePairs, List.foldl_append]

theorem replacePairs_no_occ :
    ∀ (ps : List (Str × Str)) {s : Str}, (∀ pr ∈ ps, occursIn pr.1 s = false) →
      replacePairs s ps = s := by
  intro ps
  induction ps with
  | nil => intro s _; rfl
  | cons pr rest ih =>
    intro s h
    show replacePairs (replaceAll pr.1 pr.2 s) rest = s
    rw [replaceAll_no_occ (h pr (List.mem_cons_self _ _))]
    exact ih (fun q hq => h q (List.mem_cons_of_mem _ hq))

theorem argnPairs_pct :
    ∀ (cl : List Str) (i : Nat) (pr : Str × Str), pr ∈ argnPairs i cl →
      ∃ q, pr.1 = '%' :: q := by
  intro cl
  induction cl with
  | nil => intro i pr h; simp [argnPairs] at h
  | cons a rest ih =>
    intro i pr h
    rw [show argnPairs i (a :: rest) =
        ('%' :: 'a' :: 'r' :: 'g' :: natStr i ++ ['%'], '_' :: a) ::
        ('%' :: 'a' :: 'r' :: 'g' :: natStr i ++ ['_', 'h', 'a', 's', 'h', '%'],
          md5.md5Hex ('_' :: a)) :: argnPairs (i + 1) rest from rfl] at h
    rcases List.mem_cons.mp h with rfl | h'
    · exact ⟨_, rfl⟩
    · rcases List.mem_cons.mp h' with rfl | h''
      · exact ⟨_, rfl⟩
      · exact ih (i + 1) pr h''

theorem lastArgSplit_none {s : Str} (h : '%' ∉ s) : lastArgSplit s = none := by
  induction s with
  | nil => rfl
  | cons c t ih =>
    have hc : ¬ c = '%' := fun he => h (he ▸ List.mem_cons_self c t)
    have ht : '%' ∉ t := fun hm => h (List.mem_cons_of_mem c hm)
    rw [show lastArgSplit (c :: t) =
        (match lastArgSplit t with
        | some ab => some (c :: ab.1, ab.2)
        | none => if c = '%' then (argAfterPct t).map (fun r => (([] : Str), r))
          else none) from rfl, ih ht]
    simp [hc]

theorem argScrubF_id {s : Str} (h : '%' ∉ s) : ∀ n, argScrubF n s = s := by
  intro n
  cases n with
  | zero => rfl
  | succ k =>
    show argScrubF (k + 1) s = s
    unfold argScrubF
    rw [lastArgSplit_none h]

theorem ne_pct_pair {v : Str} (hv : '%' ∉ v) (c : Char) : v ≠ ['%', c] := by
  intro he
  rw [he] at hv
  exact hv (List.mem_cons_self _ _)

end settings

end Timemory

namespace Timemory

namespace settings

/-- The placeholder view after the `%m` pass. -/
def gTok1 (vm : Str) : PTok → Str
  | .m => vm
  | τ => tokStr τ

/-- The placeholder view after the `%m` and `%p` passes. -/
def gTok2 (vm vp : Str) : PTok → Str
  | .m => vm
  | .p => vp
  | τ => tokStr τ

/-- The placeholder view after the `%m`, `%p`, `%j` passes. -/
def gTok3 (vm vp vj : Str) : PTok → Str
  | .m => vm
  | .p => vp
  | .j => vj
  | τ => tokStr τ

/-- The `let`-free unfolding of `format`. -/
theorem format_eq (ctx : FormatCtx) (fpath tag : Str) :
    format ctx fpath tag =
      if (replacePairs fpath mungePairs).contains '%' = true then
        argScrubF ((replacePairs (replacePairs (replacePairs fpath mungePairs)
            (formatPairs ctx tag))
            (argnPairs 1 ((mungedCmdline ctx.cmdline).drop 1))).length + 1)
          (replacePairs (replacePairs (replacePairs fpath mungePairs)
            (formatPairs ctx tag))
            (argnPairs 1 ((mungedCmdline ctx.cmdline).drop 1)))
      else replacePairs fpath mungePairs := rfl

theorem gTok1_spec (vm : Str) : ∀ τ : PTok,
    (if tokStr τ = ['%', 'm'] then vm else tokStr τ) = gTok1 vm τ := by
  intro τ
  cases τ <;> simp [tokStr, tokChar, gTok1]

theorem gTok1_shape (vm : Str) (hvm : '%' ∉ vm) :
    ∀ τ : PTok, gTok1 vm τ = ['%', tokChar τ] ∨ '%' ∉ gTok1 vm τ := by
  intro τ
  cases τ
  exacts [Or.inr hvm, Or.inl rfl, Or.inl rfl, Or.inl rfl]

theorem gTok2_spec (vm vp : Str) (hvm : '%' ∉ vm) : ∀ τ : PTok,
    (if gTok1 vm τ = ['%', 'p'] then vp else gTok1 vm τ) = gTok2 vm vp τ := by
  intro τ
  cases τ
  · simp [gTok1, gTok2, if_neg (ne_pct_pair hvm 'p')]
  · simp [gTok1, gTok2, tokStr, tokChar]
  · simp [gTok1, gTok2, tokStr, tokChar]
  · simp [gTok1, gTok2, tokStr, tokChar]

theorem gTok2_shape (vm vp : Str) (hvm : '%' ∉ vm) (hvp : '%' ∉ vp) :
    ∀ τ : PTok, gTok2 vm vp τ = ['%', tokChar τ] ∨ '%' ∉ gTok2 vm vp τ := by
  intro τ
  cases τ
  exacts [Or.inr hvm, Or.inr hvp, Or.inl rfl, Or.inl rfl]

theorem gTok3_spec (vm vp vj : Str) (hvm : '%' ∉ vm) (hvp : '%' ∉ vp) : ∀ τ : PTok,
    (if gTok2 vm vp τ = ['%', 'j'] then vj else gTok2 vm vp τ) = gTok3 vm vp vj τ := by
  intro τ
  cases τ
  · simp [gTok2, gTok3, if_neg (ne_pct_pair hvm 'j')]
  · simp [gTok2, gTok3, if_neg (ne_pct_pair hvp 'j')]
  · simp [gTok2, gTok3, tokStr, tokChar]
  · simp [gTok2, gTok3, tokStr, tokChar]

theorem gTok3_shape (vm vp vj : Str) (hvm : '%' ∉ vm) (hvp : '%' ∉ vp)
    (hvj : '%' ∉ vj) :
    ∀ τ : PTok, gTok3 vm vp vj τ = ['%', tokChar τ] ∨ '%' ∉ gTok3 vm vp vj τ := by
  intro τ
  cases τ
  exacts [Or.inr hvm, Or.inr hvp, Or.inr hvj, Or.inl rfl]

theorem gTok4_spec (ctx : FormatCtx) (tag : Str)
    (hvm : '%' ∉ md5.md5Hex (argtStr ctx.cmdline tag))
    (hvp : '%' ∉ ctx.pid) (hvj : '%' ∉ ctx.job) : ∀ τ : PTok,
    (if gTok3 (md5.md5Hex (argtStr ctx.cmdline tag)) ctx.pid ctx.job τ = ['%', 'r']
      then ctx.rank
      else gTok3 (md5.md5Hex (argtStr ctx.cmdline tag)) ctx.pid ctx.job τ) =
    tokVal ctx tag τ := by
  intro τ
  cases τ
  · simp [gTok3, tokVal, if_neg (ne_pct_pair hvm 'r')]
  · simp [gTok3, tokVal, if_neg (ne_pct_pair hvp 'r')]
  · simp [gTok3, tokVal, if_neg (ne_pct_pair hvj 'r')]
  · simp [gTok3, tokVal, tokStr, tokChar]

theorem tokVal_no_pct {ctx : FormatCtx} {tag : Str}
    (hvm : '%' ∉ md5.md5Hex (argtStr ctx.cmdline tag)) (hvp : '%' ∉ ctx.pid)
    (hvj : '%' ∉ ctx.job) (hvr : '%' ∉ ctx.rank) :
    ∀ τ : PTok, '%' ∉ tokVal ctx tag τ := by
  intro τ
  cases τ
  exacts [hvm, hvp, hvj, hvr]

end settings

/-- C7 (amended): in `settings::format`, over a template of literal
segments free of `%` interleaved with the placeholders `%p`, `%r`, `%j`,
`%m`, and with substitution values free of `%`, templates avoiding the
`--`/`__`/`//` munge pairs and the fourteen long bracketed forms, the
result is the template with `%p` replaced by the process id, `%r` by the
rank, `%j` by the job id, and `%m` by the md5 of `_argt_string` (the tag
joined with the munged command-line arguments — not the md5 of argv);
the result contains every substitution value and none of the four
placeholders. -/
theorem claim_C7 (ctx : settings.FormatCtx) (tag : Str) (tpl : settings.Tpl)
    (hhead : '%' ∉ tpl.head)
    (hlits : ∀ pr ∈ tpl.parts, '%' ∉ pr.2)
    (hpid : '%' ∉ ctx.pid) (hjob : '%' ∉ ctx.job) (hrank : '%' ∉ ctx.rank)
    (hmd5 : '%' ∉ md5.md5Hex (settings.argtStr ctx.cmdline tag))
    (hmunge : ∀ pr ∈ settings.mungePairs,
      occursIn pr.1 (settings.render settings.tokStr tpl) = false)
    (hlong : ∀ pr ∈ settings.longPairs ctx tag,
      occursIn pr.1 (settings.render settings.tokStr tpl) = false) :
    settings.format ctx (settings.render settings.tokStr tpl) tag =
      settings.render (settings.tokVal ctx tag) tpl ∧
    (∀ pr ∈ tpl.parts, occursIn (settings.tokVal ctx tag pr.1)
      (settings.format ctx (settings.render settings.tokStr tpl) tag) = true) ∧
    (∀ τ : settings.PTok, occursIn (settings.tokStr τ)
      (settings.format ctx (settings.render settings.tokStr tpl) tag) = false) := by
  obtain ⟨head, parts⟩ := tpl
  simp only [settings.render, settings.Tpl.head, settings.Tpl.parts] at *
  have hnpv : '%' ∉ head ++ settings.renderParts (settings.tokVal ctx tag) parts := by
    intro hmem
    rcases List.mem_append.mp hmem with h | h
    · exact hhead h
    · obtain ⟨pr, hpr, hx⟩ := settings.mem_renderParts h
      rcases hx with hx | hx
      · exact settings.tokVal_no_pct hmd5 hpid hjob hrank pr.1 hx
      · exact hlits pr hpr hx
  have hf1 : settings.replacePairs (head ++ settings.renderParts settings.tokStr parts)
      settings.mungePairs = head ++ settings.renderParts settings.tokStr parts :=
    settings.replacePairs_no_occ _ hmunge
  have hS : settings.replacePairs (head ++ settings.renderParts settings.tokStr parts)
      (settings.shortPairs ctx tag) =
      head ++ settings.renderParts (settings.tokVal ctx tag) parts := by
    simp only [settings.shortPairs, settings.replacePairs, List.foldl_cons, List.foldl_nil]
    rw [settings.replaceAll_subst (g := settings.tokStr) hmd5 (fun τ => Or.inl rfl)
        hhead hlits,
      settings.renderParts_congr (settings.gTok1_spec _) parts,
      settings.replaceAll_subst hpid (settings.gTok1_shape _ hmd5) hhead hlits,
      settings.renderParts_congr (settings.gTok2_spec _ _ hmd5) parts,
      settings.replaceAll_subst hjob (settings.gTok2_shape _ _ hmd5 hpid) hhead hlits,
      settings.renderParts_congr (settings.gTok3_spec _ _ _ hmd5 hpid) parts,
      settings.replaceAll_subst hrank (settings.gTok3_shape _ _ _ hmd5 hpid hjob)
        hhead hlits,
      settings.renderParts_congr (settings.gTok4_spec ctx tag hmd5 hpid hjob) parts,
      replaceAll_no_occ (settings.occursIn_false_of_not_mem hnpv)]
  have hmain : settings.format ctx (head ++ settings.renderParts settings.tokStr parts)
      tag = head ++ settings.renderParts (settings.tokVal ctx tag) parts := by
    cases parts with
    | nil =>
      have hnp0 : '%' ∉ head ++ settings.renderParts settings.tokStr [] := by
        intro hmem
        rcases List.mem_append.mp hmem with h | h
        · exact hhead h
        · simp [settings.renderParts] at h
      have hcon : ((settings.replacePairs
          (head ++ settings.renderParts settings.tokStr [])
          settings.mungePairs).contains '%') = false := by
        rw [hf1]
        cases hcc : (head ++ settings.renderParts settings.tokStr []).contains '%' with
        | false => rfl
        | true => exact absurd (settings.contains_iff_mem.mp hcc) hnp0
      rw [settings.format_eq, if_neg (by rw [hcon]; exact Bool.false_ne_true), hf1]
      rfl
    | cons q rest =>
      have hcon : ((settings.replacePairs
          (head ++ settings.renderParts settings.tokStr (q :: rest))
          settings.mungePairs).contains '%') = true := by
        rw [hf1]
        apply settings.contains_iff_mem.mpr
        apply List.mem_append_right
        obtain ⟨τ, lit⟩ := q
        rw [show settings.renderParts settings.tokStr ((τ, lit) :: rest) =
            (settings.tokStr τ ++ lit) ++
              settings.renderParts settings.tokStr rest from rfl]
        apply List.mem_append_left
        apply List.mem_append_left
        exact List.mem_cons_self _ _
      rw [settings.format_eq, if_pos hcon, hf1,
        show settings.formatPairs ctx tag =
          settings.longPairs ctx tag ++ settings.shortPairs ctx tag from rfl,
        settings.replacePairs_append,
        settings.replacePairs_no_occ _ hlong, hS,
        settings.replacePairs_no_occ _ (fun pr hpr => by
          obtain ⟨qq, hq⟩ := settings.argnPairs_pct _ _ pr hpr
          rw [hq]
          exact settings.occursIn_false_of_not_mem hnpv),
        settings.argScrubF_id hnpv]
  refine ⟨hmain, ?_, ?_⟩
  · intro pr hpr
    rw [hmain]
    obtain ⟨a, b, hab⟩ := settings.renderParts_split head hpr
    rw [hab]
    exact settings.occursIn_append_mid a
  · intro τ
    rw [hmain,
      show settings.tokStr τ = '%' :: [settings.tokChar τ] from rfl]
    exact settings.occursIn_false_of_not_mem hnpv

/-- C7 counterexample to the original claim: with command line `[a]` and
tag `t`, formatting the path `%m` yields the md5 of `_argt_string`
(which is just the tag `t` here), and the result does not contain the
md5 of argv (`a`) anywhere — `%m` is not the md5 of argv. -/
theorem claim_C7_counterexample :
    settings.format
        ⟨[['a']], "1234".toList, "0".toList, "0".toList, "1".toList⟩
        ['%', 'm'] ['t'] = md5.md5Hex ['t'] ∧
    md5.md5Hex ['t'] = "e358efa489f58062f10dd7316b65649e".toList ∧
    settings.argvStr [['a']] = ['a'] ∧
    md5.md5Hex ['a'] = "0cc175b9c0f1b6a831c399e269772661".toList ∧
    occursIn (md5.md5Hex (settings.argvStr [['a']]))
      (settings.format
        ⟨[['a']], "1234".toList, "0".toList, "0".toList, "1".toList⟩
        ['%', 'm'] ['t']) = false := by
  decide!

theorem claim_C7_witness :
    settings.format
        ⟨[['a']], "1234".toList, "7".toList, "3".toList, "8".toList⟩
        (settings.render settings.tokStr
          ⟨"out-".toList,
            [(.p, "-".toList), (.r, "-".toList), (.j, "-".toList),
              (.m, ".json".toList)]⟩) ['t'] =
      settings.render
        (settings.tokVal
          ⟨[['a']], "1234".toList, "7".toList, "3".toList, "8".toList⟩ ['t'])
        ⟨"out-".toList,
          [(.p, "-".toList), (.r, "-".toList), (.j, "-".toList),
            (.m, ".json".toList)]⟩ :=
  (claim_C7 ⟨[['a']], "1234".toList, "7".toList, "3".toList, "8".toList⟩ ['t']
    ⟨"out-".toList,
      [(.p, "-".toList), (.r, "-".toList), (.j, "-".toList), (.m, ".json".toList)]⟩
    (by decide) (by decide) (by decide) (by decide) (by decide) (by decide)
    (by decide) (by decide)).1

end Timemory
